import Mathlib

/-!
Verification of the Gudhi persistence-matrix column and matrix operations.

This file gives a shallow embedding of the column containers and matrix
variants of the persistence-matrix engine, translated from:
* `src/Persistence_matrix/include/gudhi/Persistence_matrix/columns/naive_vector_column.h`
* `src/Persistence_matrix/include/gudhi/Persistence_matrix/base_matrix_with_column_compression.h`
* `src/Persistence_matrix/include/gudhi/column_types/z2_unordered_set_column.h`
* `src/Persistence_matrix/include/gudhi/column_types/chain_columns/chain_vector_column.h`
* `src/Tower_to_filtration/include/gudhi/tower_converter.h`

A column over the field `Z/p` is modelled as a list of cells `(row, value)`;
the C++ containers keep cells ordered by strictly increasing row index and
never store a zero value (the well-formedness predicate `ColumnWF`).
Machine integers of the C++ code are modelled as `Nat` (row indices never
overflow in the modelled scenarios) and field elements as `ZMod p`,
mirroring the `Zp_field_operators` arithmetic (all operations are reduced
mod `p`).
-/

/-- A cell of a column: a `(row index, field value)` pair, as in `Cell`
(`naive_vector_column.h` stores `(row_index, element)` per cell). -/
abbrev Cell (p : ℕ) := ℕ × ZMod p

/-- The field value stored at row `r`: the value of the first cell whose row
index is `r`, and `0` when no such cell exists.  This is the dense reading of
the sparse column used by `get_content` and `is_non_zero`. -/
def valueAt {p : ℕ} : List (Cell p) → ℕ → ZMod p
  | [], _ => 0
  | c :: l, r => if c.1 = r then c.2 else valueAt l r

/-- Well-formedness invariant of every column variant (spec P1 and P2):
cells are ordered by strictly increasing row index and no stored value is the
additive identity. -/
def ColumnWF {p : ℕ} (l : List (Cell p)) : Prop :=
  l.Pairwise (fun a b => a.1 < b.1) ∧ ∀ c ∈ l, c.2 ≠ 0

instance {p : ℕ} (l : List (Cell p)) : Decidable (ColumnWF l) :=
  inferInstanceAs
    (Decidable (l.Pairwise (fun a b : Cell p => a.1 < b.1) ∧ ∀ c ∈ l, c.2 ≠ (0 : ZMod p)))

/-- `Naive_vector_column::_add` (naive_vector_column.h, lines 917-994), the
`!is_z2` branch: linear merge of the target (first argument) with the source
(second argument).  Matching rows are added with `add_inplace` and the cell is
dropped when the sum is the additive identity; the merge is written into a
fresh buffer which is swapped in at the end, which the pure reading below
reflects.  The early returns for an empty source and an empty target produce
the same cell list as the general merge, so a single recursion covers them. -/
def addColumns {p : ℕ} : List (Cell p) → List (Cell p) → List (Cell p)
  | [], source => source
  | tc :: target, [] => tc :: target
  | tc :: target, sc :: source =>
    if tc.1 < sc.1 then tc :: addColumns target (sc :: source)
    else if sc.1 < tc.1 then sc :: addColumns (tc :: target) source
    else if tc.2 + sc.2 = 0 then addColumns target source
    else (tc.1, tc.2 + sc.2) :: addColumns target source
termination_by t s => t.length + s.length

/-- The merge loop of `Naive_vector_column::_multiply_target_and_add`
(naive_vector_column.h, lines 1024-1066): target cells are multiplied in
place by `val` (`multiply_inplace`), matching rows use
`multiply_and_add_inplace_front` (`x ← x·val + y`, modelled from the spec of
the field operators, which are not part of the provided sources) and the cell
is dropped when the result is the additive identity; remaining source cells
are copied. -/
def mtaMerge {p : ℕ} (val : ZMod p) : List (Cell p) → List (Cell p) → List (Cell p)
  | [], source => source
  | tc :: target, [] => (tc.1, tc.2 * val) :: mtaMerge val target []
  | tc :: target, sc :: source =>
    if tc.1 < sc.1 then (tc.1, tc.2 * val) :: mtaMerge val target (sc :: source)
    else if sc.1 < tc.1 then sc :: mtaMerge val (tc :: target) source
    else if tc.2 * val + sc.2 = 0 then mtaMerge val target source
    else (tc.1, tc.2 * val + sc.2) :: mtaMerge val target source
termination_by t s => t.length + s.length

/-- `Naive_vector_column::multiply_target_and_add` for a non-chain column over
`Z/p` (naive_vector_column.h, lines 693-717 dispatching to
`_multiply_target_and_add`, lines 996-1071): when `val` is the additive
identity the target is cleared and the subsequent empty-target branch copies
the source; when the target is empty the source is copied; otherwise the
merge runs. -/
def multiplyTargetAndAdd {p : ℕ} (val : ZMod p) (target source : List (Cell p)) :
    List (Cell p) :=
  if val = 0 then source
  else if target = [] then source
  else mtaMerge val target source

/-- `Naive_vector_column::get_content(columnLength)` (naive_vector_column.h,
lines 435-454): a dense vector of `columnLength` zeros overwritten at each
cell's row, the iteration stopping at the first cell whose row index reaches
`columnLength`. -/
def getContent {p : ℕ} (l : List (Cell p)) (columnLength : ℕ) : List (ZMod p) :=
  (l.takeWhile (fun c => c.1 < columnLength)).foldl
    (fun cont c => cont.set c.1 c.2) (List.replicate columnLength 0)

/-- `Naive_vector_column::operator*=` over `Z/p` for a non-chain column
(naive_vector_column.h, lines 658-691): the scalar is normalized by
`get_value`; multiplication by the additive identity clears the column,
multiplication by the multiplicative identity is the identity, otherwise all
cell values are multiplied in place. -/
def mulColumn {p : ℕ} (v : ℕ) (l : List (Cell p)) : List (Cell p) :=
  if (v : ZMod p) = 0 then []
  else if (v : ZMod p) = 1 then l
  else l.map fun c => (c.1, c.2 * (v : ZMod p))

/-- `Naive_vector_column::reorder(valueMap)` (naive_vector_column.h, lines
477-503): every cell's row index is sent through the map, then the cell
vector is re-sorted by row index. -/
def reorderColumn {p : ℕ} (f : ℕ → ℕ) (l : List (Cell p)) : List (Cell p) :=
  (l.map fun c => (f c.1, c.2)).mergeSort fun a b => a.1 ≤ b.1

/-- `Naive_vector_column::clear(rowIndex)` (naive_vector_column.h, lines
519-531): scan for the first cell at the given row and erase it when found. -/
def clearRow {p : ℕ} (r : ℕ) (l : List (Cell p)) : List (Cell p) :=
  l.takeWhile (fun c => c.1 ≠ r) ++ (l.dropWhile fun c => c.1 ≠ r).drop 1

/-- The boundary-taking constructor of `Naive_vector_column`
(naive_vector_column.h, lines 290-323): one cell is created per entry of the
given container, in order, with the value passed through `get_value`. -/
def ofBoundary {p : ℕ} (l : List (Cell p)) : List (Cell p) :=
  l.map fun c => (c.1, c.2)

theorem valueAt_eq_zero_of_forall_lt {p : ℕ} {l : List (Cell p)} {r : ℕ}
    (h : ∀ c ∈ l, r < c.1) : valueAt l r = 0 := by
  induction l with
  | nil => rfl
  | cons c l ih =>
    have hc := h c (List.mem_cons_self c l)
    have hcr : ¬ c.1 = r := by omega
    rw [valueAt, if_neg hcr]
    exact ih fun d hd => h d (List.mem_cons_of_mem _ hd)

theorem valueAt_eq_zero_of_not_mem {p : ℕ} {l : List (Cell p)} {r : ℕ}
    (h : r ∉ l.map Prod.fst) : valueAt l r = 0 := by
  induction l with
  | nil => rfl
  | cons c l ih =>
    simp only [List.map_cons, List.mem_cons, not_or] at h
    have hcr : ¬ c.1 = r := fun hc => h.1 hc.symm
    rw [valueAt, if_neg hcr]
    exact ih h.2

theorem valueAt_eq_of_mem {p : ℕ} {l : List (Cell p)} {r : ℕ} {v : ZMod p}
    (hmem : (r, v) ∈ l) (hnd : (l.map Prod.fst).Nodup) : valueAt l r = v := by
  induction l with
  | nil => cases hmem
  | cons c l ih =>
    simp only [List.map_cons, List.nodup_cons] at hnd
    rcases List.mem_cons.1 hmem with h | h
    · cases h; simp [valueAt]
    · have hcr : c.1 ≠ r := by
        intro hc
        exact hnd.1 (hc ▸ List.mem_map_of_mem Prod.fst h)
      simp only [valueAt, if_neg hcr]
      exact ih h hnd.2

theorem SortedRows.head_lt {p : ℕ} {c : Cell p} {l : List (Cell p)}
    (h : (c :: l).Pairwise (fun a b => a.1 < b.1)) :
    ∀ d ∈ l, c.1 < d.1 :=
  (List.pairwise_cons.1 h).1

/-- Pointwise correctness of the `_add` merge: on well-ordered columns, the
value stored at every row of the merge is the field sum of the two inputs. -/
theorem valueAt_addColumns {p : ℕ} :
    ∀ (t s : List (Cell p)),
      t.Pairwise (fun a b => a.1 < b.1) → s.Pairwise (fun a b => a.1 < b.1) →
      ∀ r, valueAt (addColumns t s) r = valueAt t r + valueAt s r := by
  intro t
  induction t with
  | nil => intro s _ _ r; simp [addColumns, valueAt]
  | cons tc target iht =>
    intro s
    induction s with
    | nil => intro _ _ r; simp [addColumns, valueAt]
    | cons sc source ihs =>
      intro ht hs r
      have ht' := (List.pairwise_cons.1 ht).2
      have hs' := (List.pairwise_cons.1 hs).2
      by_cases h1 : tc.1 < sc.1
      · simp only [addColumns, if_pos h1, valueAt]
        by_cases hr : tc.1 = r
        · subst hr
          have hss : valueAt source tc.1 = 0 :=
            valueAt_eq_zero_of_forall_lt fun d hd =>
              lt_trans h1 (SortedRows.head_lt hs d hd)
          rw [if_pos rfl, if_pos rfl, if_neg (by omega : ¬ sc.1 = tc.1), hss, add_zero]
        · rw [if_neg hr, if_neg hr, iht (sc :: source) ht' hs r]
          simp only [valueAt]
      · by_cases h2 : sc.1 < tc.1
        · simp only [addColumns, if_neg h1, if_pos h2, valueAt]
          by_cases hr : sc.1 = r
          · subst hr
            have htt : valueAt target sc.1 = 0 :=
              valueAt_eq_zero_of_forall_lt fun d hd =>
                lt_trans h2 (SortedRows.head_lt ht d hd)
            rw [if_pos rfl, if_neg (by omega : ¬ tc.1 = sc.1), if_pos rfl, htt,
              zero_add]
          · rw [if_neg hr, ihs ht hs' r]
            simp only [valueAt]
            rw [if_neg hr]
        · have heq : tc.1 = sc.1 := by omega
          have hzt : ∀ r', tc.1 = r' → valueAt target r' = 0 := by
            intro r' hr'
            exact valueAt_eq_zero_of_forall_lt fun d hd => hr' ▸ SortedRows.head_lt ht d hd
          have hzs : ∀ r', tc.1 = r' → valueAt source r' = 0 := by
            intro r' hr'
            refine valueAt_eq_zero_of_forall_lt fun d hd => ?_
            have := SortedRows.head_lt hs d hd
            omega
          by_cases h0 : tc.2 + sc.2 = 0
          · simp only [addColumns, if_neg h1, if_neg h2, if_pos h0]
            rw [iht source ht' hs' r]
            simp only [valueAt]
            by_cases hr : tc.1 = r
            · rw [if_pos hr, if_pos (by omega : sc.1 = r), hzt r hr, hzs r hr, h0,
                add_zero]
            · rw [if_neg hr, if_neg (by omega : ¬ sc.1 = r)]
          · simp only [addColumns, if_neg h1, if_neg h2, if_neg h0, valueAt]
            by_cases hr : tc.1 = r
            · rw [if_pos hr, if_pos hr, if_pos (by omega : sc.1 = r)]
            · rw [if_neg hr, if_neg hr, if_neg (by omega : ¬ sc.1 = r),
                iht source ht' hs' r]

/-- Pointwise correctness of the `_multiply_target_and_add` merge loop. -/
theorem valueAt_mtaMerge {p : ℕ} (val : ZMod p) :
    ∀ (t s : List (Cell p)),
      t.Pairwise (fun a b => a.1 < b.1) → s.Pairwise (fun a b => a.1 < b.1) →
      ∀ r, valueAt (mtaMerge val t s) r = valueAt t r * val + valueAt s r := by
  intro t
  induction t with
  | nil => intro s _ _ r; simp [mtaMerge, valueAt]
  | cons tc target iht =>
    intro s
    induction s with
    | nil =>
      intro ht _ r
      have ht' := (List.pairwise_cons.1 ht).2
      simp only [mtaMerge, valueAt]
      by_cases hr : tc.1 = r
      · rw [if_pos hr, if_pos hr, add_zero]
      · rw [if_neg hr, if_neg hr, iht [] ht' List.Pairwise.nil r]
        simp [valueAt]
    | cons sc source ihs =>
      intro ht hs r
      have ht' := (List.pairwise_cons.1 ht).2
      have hs' := (List.pairwise_cons.1 hs).2
      by_cases h1 : tc.1 < sc.1
      · simp only [mtaMerge, if_pos h1, valueAt]
        by_cases hr : tc.1 = r
        · subst hr
          have hss : valueAt source tc.1 = 0 :=
            valueAt_eq_zero_of_forall_lt fun d hd =>
              lt_trans h1 (SortedRows.head_lt hs d hd)
          rw [if_pos rfl, if_pos rfl, if_neg (by omega : ¬ sc.1 = tc.1), hss, add_zero]
        · rw [if_neg hr, if_neg hr, iht (sc :: source) ht' hs r]
          simp only [valueAt]
      · by_cases h2 : sc.1 < tc.1
        · simp only [mtaMerge, if_neg h1, if_pos h2, valueAt]
          by_cases hr : sc.1 = r
          · subst hr
            have htt : valueAt target sc.1 = 0 :=
              valueAt_eq_zero_of_forall_lt fun d hd =>
                lt_trans h2 (SortedRows.head_lt ht d hd)
            rw [if_pos rfl, if_neg (by omega : ¬ tc.1 = sc.1), if_pos rfl, htt,
              zero_mul, zero_add]
          · rw [if_neg hr, ihs ht hs' r]
            simp only [valueAt]
            rw [if_neg hr]
        · have heq : tc.1 = sc.1 := by omega
          have hzt : ∀ r', tc.1 = r' → valueAt target r' = 0 := by
            intro r' hr'
            exact valueAt_eq_zero_of_forall_lt fun d hd => hr' ▸ SortedRows.head_lt ht d hd
          have hzs : ∀ r', tc.1 = r' → valueAt source r' = 0 := by
            intro r' hr'
            refine valueAt_eq_zero_of_forall_lt fun d hd => ?_
            have := SortedRows.head_lt hs d hd
            omega
          by_cases h0 : tc.2 * val + sc.2 = 0
          · simp only [mtaMerge, if_neg h1, if_neg h2, if_pos h0]
            rw [iht source ht' hs' r]
            simp only [valueAt]
            by_cases hr : tc.1 = r
            · rw [if_pos hr, if_pos (by omega : sc.1 = r), hzt r hr, hzs r hr,
                zero_mul, h0, add_zero]
            · rw [if_neg hr, if_neg (by omega : ¬ sc.1 = r)]
          · simp only [mtaMerge, if_neg h1, if_neg h2, if_neg h0, valueAt]
            by_cases hr : tc.1 = r
            · rw [if_pos hr, if_pos hr, if_pos (by omega : sc.1 = r)]
            · rw [if_neg hr, if_neg hr, if_neg (by omega : ¬ sc.1 = r),
                iht source ht' hs' r]

theorem mem_rows_addColumns {p : ℕ} :
    ∀ (t s : List (Cell p)) (c : Cell p), c ∈ addColumns t s →
      c.1 ∈ t.map Prod.fst ∨ c.1 ∈ s.map Prod.fst := by
  intro t
  induction t with
  | nil =>
    intro s c hc
    rw [addColumns] at hc
    right
    exact List.mem_map_of_mem Prod.fst hc
  | cons tc target iht =>
    intro s
    induction s with
    | nil =>
      intro c hc
      rw [addColumns] at hc
      left
      exact List.mem_map_of_mem Prod.fst hc
    | cons sc source ihs =>
      intro c hc
      by_cases h1 : tc.1 < sc.1
      · simp only [addColumns, if_pos h1] at hc
        rcases List.mem_cons.1 hc with h | h
        · left; simp [h]
        · rcases iht (sc :: source) c h with h' | h'
          · left; simp only [List.map_cons, List.mem_cons]; right; exact h'
          · right; exact h'
      · by_cases h2 : sc.1 < tc.1
        · simp only [addColumns, if_neg h1, if_pos h2] at hc
          rcases List.mem_cons.1 hc with h | h
          · right; simp [h]
          · rcases ihs c h with h' | h'
            · left; exact h'
            · right; simp only [List.map_cons, List.mem_cons]; right; exact h'
        · by_cases h0 : tc.2 + sc.2 = 0
          · simp only [addColumns, if_neg h1, if_neg h2, if_pos h0] at hc
            rcases iht source c hc with h' | h'
            · left; simp only [List.map_cons, List.mem_cons]; right; exact h'
            · right; simp only [List.map_cons, List.mem_cons]; right; exact h'
          · simp only [addColumns, if_neg h1, if_neg h2, if_neg h0] at hc
            rcases List.mem_cons.1 hc with h | h
            · left; simp [h]
            · rcases iht source c h with h' | h'
              · left; simp only [List.map_cons, List.mem_cons]; right; exact h'
              · right; simp only [List.map_cons, List.mem_cons]; right; exact h'

theorem mem_rows_mtaMerge {p : ℕ} (val : ZMod p) :
    ∀ (t s : List (Cell p)) (c : Cell p), c ∈ mtaMerge val t s →
      c.1 ∈ t.map Prod.fst ∨ c.1 ∈ s.map Prod.fst := by
  intro t
  induction t with
  | nil =>
    intro s c hc
    rw [mtaMerge] at hc
    right
    exact List.mem_map_of_mem Prod.fst hc
  | cons tc target iht =>
    intro s
    induction s with
    | nil =>
      intro c hc
      simp only [mtaMerge] at hc
      rcases List.mem_cons.1 hc with h | h
      · left; simp [h]
      · rcases iht [] c h with h' | h'
        · left; simp only [List.map_cons, List.mem_cons]; right; exact h'
        · simp at h'
    | cons sc source ihs =>
      intro c hc
      by_cases h1 : tc.1 < sc.1
      · simp only [mtaMerge, if_pos h1] at hc
        rcases List.mem_cons.1 hc with h | h
        · left; simp [h]
        · rcases iht (sc :: source) c h with h' | h'
          · left; simp only [List.map_cons, List.mem_cons]; right; exact h'
          · right; exact h'
      · by_cases h2 : sc.1 < tc.1
        · simp only [mtaMerge, if_neg h1, if_pos h2] at hc
          rcases List.mem_cons.1 hc with h | h
          · right; simp [h]
          · rcases ihs c h with h' | h'
            · left; exact h'
            · right; simp only [List.map_cons, List.mem_cons]; right; exact h'
        · by_cases h0 : tc.2 * val + sc.2 = 0
          · simp only [mtaMerge, if_neg h1, if_neg h2, if_pos h0] at hc
            rcases iht source c hc with h' | h'
            · left; simp only [List.map_cons, List.mem_cons]; right; exact h'
            · right; simp only [List.map_cons, List.mem_cons]; right; exact h'
          · simp only [mtaMerge, if_neg h1, if_neg h2, if_neg h0] at hc
            rcases List.mem_cons.1 hc with h | h
            · left; simp [h]
            · rcases iht source c h with h' | h'
              · left; simp only [List.map_cons, List.mem_cons]; right; exact h'
              · right; simp only [List.map_cons, List.mem_cons]; right; exact h'

theorem lt_of_mem_rows {p : ℕ} {l : List (Cell p)} {x : ℕ} {r : ℕ}
    (h : ∀ d ∈ l, x < d.1) (hr : r ∈ l.map Prod.fst) : x < r := by
  rcases List.mem_map.1 hr with ⟨d, hd, hd1⟩
  exact hd1 ▸ h d hd

/-- The `_add` merge keeps the cells in strictly increasing row order. -/
theorem sorted_addColumns {p : ℕ} :
    ∀ (t s : List (Cell p)),
      t.Pairwise (fun a b => a.1 < b.1) → s.Pairwise (fun a b => a.1 < b.1) →
      (addColumns t s).Pairwise (fun a b => a.1 < b.1) := by
  intro t
  induction t with
  | nil => intro s _ hs; rw [addColumns]; exact hs
  | cons tc target iht =>
    intro s
    induction s with
    | nil => intro ht _; rw [addColumns]; exact ht
    | cons sc source ihs =>
      intro ht hs
      have ht' := (List.pairwise_cons.1 ht).2
      have hs' := (List.pairwise_cons.1 hs).2
      by_cases h1 : tc.1 < sc.1
      · simp only [addColumns, if_pos h1]
        refine List.pairwise_cons.2 ⟨?_, iht (sc :: source) ht' hs⟩
        intro c hc
        rcases mem_rows_addColumns target (sc :: source) c hc with h | h
        · exact lt_of_mem_rows (SortedRows.head_lt ht) h
        · simp only [List.map_cons, List.mem_cons] at h
          rcases h with h | h
          · omega
          · have := lt_of_mem_rows (SortedRows.head_lt hs) h
            omega
      · by_cases h2 : sc.1 < tc.1
        · simp only [addColumns, if_neg h1, if_pos h2]
          refine List.pairwise_cons.2 ⟨?_, ihs ht hs'⟩
          intro c hc
          rcases mem_rows_addColumns (tc :: target) source c hc with h | h
          · simp only [List.map_cons, List.mem_cons] at h
            rcases h with h | h
            · omega
            · have := lt_of_mem_rows (SortedRows.head_lt ht) h
              omega
          · exact lt_of_mem_rows (SortedRows.head_lt hs) h
        · by_cases h0 : tc.2 + sc.2 = 0
          · simp only [addColumns, if_neg h1, if_neg h2, if_pos h0]
            exact iht source ht' hs'
          · simp only [addColumns, if_neg h1, if_neg h2, if_neg h0]
            refine List.pairwise_cons.2 ⟨?_, iht source ht' hs'⟩
            intro c hc
            show tc.1 < c.1
            rcases mem_rows_addColumns target source c hc with h | h
            · exact lt_of_mem_rows (SortedRows.head_lt ht) h
            · have := lt_of_mem_rows (SortedRows.head_lt hs) h
              omega

/-- The `_multiply_target_and_add` merge keeps the cells in strictly
increasing row order. -/
theorem sorted_mtaMerge {p : ℕ} (val : ZMod p) :
    ∀ (t s : List (Cell p)),
      t.Pairwise (fun a b => a.1 < b.1) → s.Pairwise (fun a b => a.1 < b.1) →
      (mtaMerge val t s).Pairwise (fun a b => a.1 < b.1) := by
  intro t
  induction t with
  | nil => intro s _ hs; rw [mtaMerge]; exact hs
  | cons tc target iht =>
    intro s
    induction s with
    | nil =>
      intro ht _
      simp only [mtaMerge]
      refine List.pairwise_cons.2 ⟨?_, iht [] (List.pairwise_cons.1 ht).2 List.Pairwise.nil⟩
      intro c hc
      show tc.1 < c.1
      rcases mem_rows_mtaMerge val target [] c hc with h | h
      · exact lt_of_mem_rows (SortedRows.head_lt ht) h
      · simp at h
    | cons sc source ihs =>
      intro ht hs
      have ht' := (List.pairwise_cons.1 ht).2
      have hs' := (List.pairwise_cons.1 hs).2
      by_cases h1 : tc.1 < sc.1
      · simp only [mtaMerge, if_pos h1]
        refine List.pairwise_cons.2 ⟨?_, iht (sc :: source) ht' hs⟩
        intro c hc
        show tc.1 < c.1
        rcases mem_rows_mtaMerge val target (sc :: source) c hc with h | h
        · exact lt_of_mem_rows (SortedRows.head_lt ht) h
        · simp only [List.map_cons, List.mem_cons] at h
          rcases h with h | h
          · omega
          · have := lt_of_mem_rows (SortedRows.head_lt hs) h
            omega
      · by_cases h2 : sc.1 < tc.1
        · simp only [mtaMerge, if_neg h1, if_pos h2]
          refine List.pairwise_cons.2 ⟨?_, ihs ht hs'⟩
          intro c hc
          rcases mem_rows_mtaMerge val (tc :: target) source c hc with h | h
          · simp only [List.map_cons, List.mem_cons] at h
            rcases h with h | h
            · omega
            · have := lt_of_mem_rows (SortedRows.head_lt ht) h
              omega
          · exact lt_of_mem_rows (SortedRows.head_lt hs) h
        · by_cases h0 : tc.2 * val + sc.2 = 0
          · simp only [mtaMerge, if_neg h1, if_neg h2, if_pos h0]
            exact iht source ht' hs'
          · simp only [mtaMerge, if_neg h1, if_neg h2, if_neg h0]
            refine List.pairwise_cons.2 ⟨?_, iht source ht' hs'⟩
            intro c hc
            show tc.1 < c.1
            rcases mem_rows_mtaMerge val target source c hc with h | h
            · exact lt_of_mem_rows (SortedRows.head_lt ht) h
            · have := lt_of_mem_rows (SortedRows.head_lt hs) h
              omega

/-- The `_add` merge never stores the additive identity: kept cells carry a
value of one of the inputs, and a matched pair is dropped when the sum
cancels. -/
theorem nonzero_addColumns {p : ℕ} :
    ∀ (t s : List (Cell p)), (∀ c ∈ t, c.2 ≠ 0) → (∀ c ∈ s, c.2 ≠ 0) →
      ∀ c ∈ addColumns t s, c.2 ≠ 0 := by
  intro t
  induction t with
  | nil => intro s _ hs c hc; rw [addColumns] at hc; exact hs c hc
  | cons tc target iht =>
    intro s
    induction s with
    | nil => intro ht _ c hc; rw [addColumns] at hc; exact ht c hc
    | cons sc source ihs =>
      intro ht hs c hc
      have ht' : ∀ c ∈ target, c.2 ≠ 0 := fun d hd => ht d (List.mem_cons_of_mem _ hd)
      have hs' : ∀ c ∈ source, c.2 ≠ 0 := fun d hd => hs d (List.mem_cons_of_mem _ hd)
      by_cases h1 : tc.1 < sc.1
      · simp only [addColumns, if_pos h1] at hc
        rcases List.mem_cons.1 hc with h | h
        · exact h ▸ ht tc (List.mem_cons_self tc target)
        · exact iht (sc :: source) ht' hs c h
      · by_cases h2 : sc.1 < tc.1
        · simp only [addColumns, if_neg h1, if_pos h2] at hc
          rcases List.mem_cons.1 hc with h | h
          · exact h ▸ hs sc (List.mem_cons_self sc source)
          · exact ihs ht hs' c h
        · by_cases h0 : tc.2 + sc.2 = 0
          · simp only [addColumns, if_neg h1, if_neg h2, if_pos h0] at hc
            exact iht source ht' hs' c hc
          · simp only [addColumns, if_neg h1, if_neg h2, if_neg h0] at hc
            rcases List.mem_cons.1 hc with h | h
            · exact h ▸ h0
            · exact iht source ht' hs' c h

/-- Over a prime field, the `_multiply_target_and_add` merge with a non-zero
coefficient never stores the additive identity. -/
theorem nonzero_mtaMerge {p : ℕ} [Fact p.Prime] (val : ZMod p) (hval : val ≠ 0) :
    ∀ (t s : List (Cell p)), (∀ c ∈ t, c.2 ≠ 0) → (∀ c ∈ s, c.2 ≠ 0) →
      ∀ c ∈ mtaMerge val t s, c.2 ≠ 0 := by
  intro t
  induction t with
  | nil => intro s _ hs c hc; rw [mtaMerge] at hc; exact hs c hc
  | cons tc target iht =>
    intro s
    induction s with
    | nil =>
      intro ht _ c hc
      simp only [mtaMerge] at hc
      rcases List.mem_cons.1 hc with h | h
      · have := ht tc (List.mem_cons_self tc target)
        rw [h]
        exact mul_ne_zero this hval
      · exact iht [] (fun d hd => ht d (List.mem_cons_of_mem _ hd))
          (by intro d hd; cases hd) c h
    | cons sc source ihs =>
      intro ht hs c hc
      have ht' : ∀ c ∈ target, c.2 ≠ 0 := fun d hd => ht d (List.mem_cons_of_mem _ hd)
      have hs' : ∀ c ∈ source, c.2 ≠ 0 := fun d hd => hs d (List.mem_cons_of_mem _ hd)
      by_cases h1 : tc.1 < sc.1
      · simp only [mtaMerge, if_pos h1] at hc
        rcases List.mem_cons.1 hc with h | h
        · have := ht tc (List.mem_cons_self tc target)
          rw [h]
          exact mul_ne_zero this hval
        · exact iht (sc :: source) ht' hs c h
      · by_cases h2 : sc.1 < tc.1
        · simp only [mtaMerge, if_neg h1, if_pos h2] at hc
          rcases List.mem_cons.1 hc with h | h
          · exact h ▸ hs sc (List.mem_cons_self sc source)
          · exact ihs ht hs' c h
        · by_cases h0 : tc.2 * val + sc.2 = 0
          · simp only [mtaMerge, if_neg h1, if_neg h2, if_pos h0] at hc
            exact iht source ht' hs' c hc
          · simp only [mtaMerge, if_neg h1, if_neg h2, if_neg h0] at hc
            rcases List.mem_cons.1 hc with h | h
            · exact h ▸ h0
            · exact iht source ht' hs' c h

theorem length_foldl_set {p : ℕ} :
    ∀ (m : List (Cell p)) (init : List (ZMod p)),
      (m.foldl (fun cont c => cont.set c.1 c.2) init).length = init.length := by
  intro m
  induction m with
  | nil => intro init; rfl
  | cons c m ih =>
    intro init
    rw [List.foldl_cons, ih, List.length_set]

theorem getElem?_foldl_set_of_not_mem {p : ℕ} {r : ℕ} :
    ∀ (m : List (Cell p)) (init : List (ZMod p)), r ∉ m.map Prod.fst →
      (m.foldl (fun cont c => cont.set c.1 c.2) init)[r]? = init[r]? := by
  intro m
  induction m with
  | nil => intro init _; rfl
  | cons c m ih =>
    intro init h
    simp only [List.map_cons, List.mem_cons, not_or] at h
    rw [List.foldl_cons, ih _ h.2, List.getElem?_set_ne (fun hc => h.1 hc.symm)]

theorem getElem?_foldl_set_of_mem {p : ℕ} {r : ℕ} {v : ZMod p} :
    ∀ (m : List (Cell p)) (init : List (ZMod p)), (m.map Prod.fst).Nodup →
      (r, v) ∈ m → r < init.length →
      (m.foldl (fun cont c => cont.set c.1 c.2) init)[r]? = some v := by
  intro m
  induction m with
  | nil => intro init _ hmem; cases hmem
  | cons c m ih =>
    intro init hnd hmem hlen
    simp only [List.map_cons, List.nodup_cons] at hnd
    rw [List.foldl_cons]
    rcases List.mem_cons.1 hmem with h | h
    · subst h
      rw [getElem?_foldl_set_of_not_mem m _ hnd.1, List.getElem?_set_self hlen]
    · exact ih _ hnd.2 h (by rw [List.length_set]; exact hlen)

theorem rows_nodup_of_sorted {p : ℕ} {l : List (Cell p)}
    (hl : l.Pairwise (fun a b => a.1 < b.1)) : (l.map Prod.fst).Nodup := by
  rw [List.Nodup, List.pairwise_map]
  exact hl.imp fun h => Nat.ne_of_lt h

theorem takeWhile_lt_eq_filter {p : ℕ} {L : ℕ} :
    ∀ (l : List (Cell p)), l.Pairwise (fun a b => a.1 < b.1) →
      l.takeWhile (fun c => c.1 < L) = l.filter (fun c => c.1 < L) := by
  intro l
  induction l with
  | nil => intro _; rfl
  | cons c l ih =>
    intro hl
    simp only [List.takeWhile_cons, List.filter_cons, decide_eq_true_eq]
    by_cases hc : c.1 < L
    · rw [if_pos hc, if_pos hc, ih (List.pairwise_cons.1 hl).2]
    · rw [if_neg hc, if_neg hc]
      symm
      rw [List.filter_eq_nil_iff]
      intro d hd
      have := SortedRows.head_lt hl d hd
      simp only [decide_eq_true_eq]
      omega

/-- Reading the dense expansion at an index below its length gives the stored
value at that row; beyond its length it gives nothing. -/
theorem getContent_getElem? {p : ℕ} {l : List (Cell p)} {L : ℕ}
    (hl : l.Pairwise (fun a b => a.1 < b.1)) (r : ℕ) :
    (getContent l L)[r]? = if r < L then some (valueAt l r) else none := by
  have hfilter := takeWhile_lt_eq_filter (L := L) l hl
  have hnds : ((l.filter (fun c => c.1 < L)).map Prod.fst).Nodup :=
    rows_nodup_of_sorted (hl.sublist (List.filter_sublist l))
  by_cases hr : r < L
  · rw [if_pos hr]
    by_cases hmem : r ∈ (l.filter (fun c => c.1 < L)).map Prod.fst
    · rcases List.mem_map.1 hmem with ⟨c, hc, hc1⟩
      have hcl : c ∈ l := List.mem_of_mem_filter hc
      have hval : valueAt l r = c.2 := by
        have : (r, c.2) ∈ l := by
          have : c = (r, c.2) := by
            rcases c with ⟨c1, c2⟩
            simp only at hc1
            rw [hc1]
          exact this ▸ hcl
        exact valueAt_eq_of_mem this (rows_nodup_of_sorted hl)
      rw [hval]
      unfold getContent
      rw [hfilter]
      refine getElem?_foldl_set_of_mem _ _ hnds ?_ ?_
      · have : c = (r, c.2) := by
          rcases c with ⟨c1, c2⟩
          simp only at hc1
          rw [hc1]
        exact this ▸ hc
      · rw [List.length_replicate]; exact hr
    · have hval : valueAt l r = 0 := by
        refine valueAt_eq_zero_of_not_mem fun hmem' => hmem ?_
        rcases List.mem_map.1 hmem' with ⟨c, hc, hc1⟩
        refine List.mem_map.2 ⟨c, List.mem_filter.2 ⟨hc, ?_⟩, hc1⟩
        simp only [decide_eq_true_eq]
        omega
      rw [hval]
      unfold getContent
      rw [hfilter, getElem?_foldl_set_of_not_mem _ _ hmem, List.getElem?_replicate,
        if_pos hr]
  · rw [if_neg hr]
    have hlen : (getContent l L).length = L := by
      unfold getContent
      rw [length_foldl_set, List.length_replicate]
    rw [List.getElem?_eq_none]
    rw [hlen]
    omega

/-- The dense expansion of a well-ordered column equals the dense reading
`valueAt` on the index range. -/
theorem getContent_eq_map_range {p : ℕ} {l : List (Cell p)} {L : ℕ}
    (hl : l.Pairwise (fun a b => a.1 < b.1)) :
    getContent l L = (List.range L).map (valueAt l) := by
  refine List.ext_getElem? fun r => ?_
  rw [getContent_getElem? hl r, List.getElem?_map]
  by_cases hr : r < L
  · rw [if_pos hr, List.getElem?_range hr]; rfl
  · rw [if_neg hr, List.getElem?_eq_none (by simpa using hr)]; rfl

theorem zipWith_map_same {α β : Type} (f : β → β → β) (g h : α → β) :
    ∀ l : List α, List.zipWith f (l.map g) (l.map h) = l.map fun x => f (g x) (h x) := by
  intro l
  induction l with
  | nil => rfl
  | cons x l ih => simp only [List.map_cons, List.zipWith_cons_cons, ih]

/-- C2 (spec P4, addition correctness): for any pair of well-formed columns
`a` (the target) and `b` (the source) and any field scalar `val`,
`multiply_target_and_add` stores exactly the pointwise field computation
`val·a + b`: the stored value at every row is `val·a(r) + b(r)` and the dense
expansion `get_content` equals the pointwise combination of the two dense
expansions.  The source `b` is read-only in the C++ code (`const Cell_range&`),
so it is left unchanged. -/
theorem C2_multiply_target_and_add (p : ℕ) (val : ZMod p) (a b : List (Cell p))
    (ha : ColumnWF a) (hb : ColumnWF b) (L : ℕ) :
    (∀ r, valueAt (multiplyTargetAndAdd val a b) r = val * valueAt a r + valueAt b r) ∧
    getContent (multiplyTargetAndAdd val a b) L =
      List.zipWith (fun x y => val * x + y) (getContent a L) (getContent b L) := by
  have hpoint : ∀ r, valueAt (multiplyTargetAndAdd val a b) r =
      val * valueAt a r + valueAt b r := by
    intro r
    unfold multiplyTargetAndAdd
    by_cases h0 : val = 0
    · rw [if_pos h0, h0, zero_mul, zero_add]
    · rw [if_neg h0]
      by_cases hae : a = []
      · rw [if_pos hae, hae]
        simp [valueAt]
      · rw [if_neg hae, valueAt_mtaMerge val a b ha.1 hb.1 r, mul_comm]
  have hsorted : (multiplyTargetAndAdd val a b).Pairwise (fun c d => c.1 < d.1) := by
    unfold multiplyTargetAndAdd
    by_cases h0 : val = 0
    · rw [if_pos h0]; exact hb.1
    · rw [if_neg h0]
      by_cases hae : a = []
      · rw [if_pos hae]; exact hb.1
      · rw [if_neg hae]; exact sorted_mtaMerge val a b ha.1 hb.1
  refine ⟨hpoint, ?_⟩
  rw [getContent_eq_map_range hsorted, getContent_eq_map_range ha.1,
    getContent_eq_map_range hb.1, zipWith_map_same]
  exact List.map_congr_left fun r _ => hpoint r

/-- Witness for C2: evaluation of the theorem at two concrete columns over
`Z/5`. -/
theorem C2_multiply_target_and_add_witness :
    ColumnWF (p := 5) [(0, 1), (2, 3)] ∧ ColumnWF (p := 5) [(1, 2), (2, 4)] ∧
    getContent (multiplyTargetAndAdd (2 : ZMod 5) [(0, 1), (2, 3)] [(1, 2), (2, 4)]) 3 =
      List.zipWith (fun x y => (2 : ZMod 5) * x + y)
        (getContent [(0, 1), (2, 3)] 3) (getContent [(1, 2), (2, 4)] 3) :=
  ⟨by decide, by decide,
    (C2_multiply_target_and_add 5 2 [(0, 1), (2, 3)] [(1, 2), (2, 4)]
      (by decide) (by decide) 3).2⟩

theorem ofBoundary_eq_self {p : ℕ} (l : List (Cell p)) : ofBoundary l = l := by
  unfold ofBoundary
  induction l with
  | nil => rfl
  | cons c l ih => rw [List.map_cons, ih]

theorem clearRow_sublist {p : ℕ} (r : ℕ) (l : List (Cell p)) :
    (clearRow r l).Sublist l := by
  have h1 : ((l.dropWhile fun c => c.1 ≠ r).drop 1).Sublist
      (l.dropWhile fun c => c.1 ≠ r) := List.drop_sublist 1 _
  have h2 := List.Sublist.append_left h1 (l.takeWhile fun c => c.1 ≠ r)
  have h3 : (l.takeWhile fun c => c.1 ≠ r) ++ (l.dropWhile fun c => c.1 ≠ r) = l :=
    List.takeWhile_append_dropWhile _ _
  have h4 : (clearRow r l).Sublist
      ((l.takeWhile fun c => c.1 ≠ r) ++ (l.dropWhile fun c => c.1 ≠ r)) := h2
  rw [h3] at h4
  exact h4

theorem sorted_reorderColumn {p : ℕ} {f : ℕ → ℕ} (hf : Function.Injective f)
    {l : List (Cell p)} (hl : l.Pairwise (fun a b => a.1 < b.1)) :
    (reorderColumn f l).Pairwise (fun a b => a.1 < b.1) := by
  have hperm : (reorderColumn f l).Perm (l.map fun c => (f c.1, c.2)) :=
    List.mergeSort_perm _ _
  have hle : (reorderColumn f l).Pairwise (fun a b : Cell p => a.1 ≤ b.1) := by
    have := @List.sorted_mergeSort (Cell p)
      (fun a b : Cell p => decide (a.1 ≤ b.1))
      (fun a b c hab hbc => by
        simp only [decide_eq_true_eq] at hab hbc ⊢
        omega)
      (fun a b => by
        simp only [Bool.or_eq_true, decide_eq_true_eq]
        omega)
      (l.map fun c => (f c.1, c.2))
    refine this.imp ?_
    intro a b h
    simpa using h
  have hrows : ((reorderColumn f l).map Prod.fst).Nodup := by
    have hmapped : ((l.map fun c => (f c.1, c.2)).map Prod.fst).Nodup := by
      have : (l.map fun c => (f c.1, c.2)).map Prod.fst = (l.map Prod.fst).map f := by
        simp [List.map_map, Function.comp]
      rw [this]
      exact (rows_nodup_of_sorted hl).map hf
    exact ((hperm.map Prod.fst).nodup_iff).2 hmapped
  have hne : (reorderColumn f l).Pairwise (fun a b : Cell p => a.1 ≠ b.1) := by
    rw [List.Nodup, List.pairwise_map] at hrows
    exact hrows
  exact (hle.and hne).imp fun h => lt_of_le_of_ne h.1 h.2

/-- C6 (spec P1 and P2): construction from a well-formed boundary, addition,
scalar multiplication, multiply-and-add, reorder along an injective row map,
cell clearing and full clearing all preserve the column well-formedness
invariant: strictly increasing row indices and no stored additive identity. -/
theorem C6_operations_preserve_wf (p : ℕ) [Fact p.Prime] (val : ZMod p) (v r : ℕ)
    (f : ℕ → ℕ) (hf : Function.Injective f) (t s : List (Cell p))
    (ht : ColumnWF t) (hs : ColumnWF s) :
    ColumnWF (ofBoundary t) ∧ ColumnWF (addColumns t s) ∧ ColumnWF (mulColumn v t) ∧
    ColumnWF (multiplyTargetAndAdd val t s) ∧ ColumnWF (reorderColumn f t) ∧
    ColumnWF (clearRow r t) ∧ ColumnWF ([] : List (Cell p)) := by
  refine ⟨?_, ?_, ?_, ?_, ?_, ?_, ?_⟩
  · rw [ofBoundary_eq_self]; exact ht
  · exact ⟨sorted_addColumns t s ht.1 hs.1, nonzero_addColumns t s ht.2 hs.2⟩
  · unfold mulColumn
    by_cases h0 : (v : ZMod p) = 0
    · rw [if_pos h0]
      exact ⟨List.Pairwise.nil, by intro c hc; cases hc⟩
    · rw [if_neg h0]
      by_cases h1 : (v : ZMod p) = 1
      · rw [if_pos h1]; exact ht
      · rw [if_neg h1]
        constructor
        · rw [List.pairwise_map]
          exact ht.1.imp fun h => h
        · intro c hc
          rcases List.mem_map.1 hc with ⟨d, hd, hdc⟩
          rw [← hdc]
          exact mul_ne_zero (ht.2 d hd) h0
  · unfold multiplyTargetAndAdd
    by_cases h0 : val = 0
    · rw [if_pos h0]; exact hs
    · rw [if_neg h0]
      by_cases hte : t = []
      · rw [if_pos hte]; exact hs
      · rw [if_neg hte]
        exact ⟨sorted_mtaMerge val t s ht.1 hs.1, nonzero_mtaMerge val h0 t s ht.2 hs.2⟩
  · refine ⟨sorted_reorderColumn hf ht.1, ?_⟩
    intro c hc
    have : c ∈ t.map fun d : Cell p => (f d.1, d.2) :=
      (List.mergeSort_perm _ _).mem_iff.1 hc
    rcases List.mem_map.1 this with ⟨d, hd, hdc⟩
    rw [← hdc]
    exact ht.2 d hd
  · exact ⟨ht.1.sublist (clearRow_sublist r t), fun c hc =>
      ht.2 c ((clearRow_sublist r t).mem hc)⟩
  · exact ⟨List.Pairwise.nil, by intro c hc; cases hc⟩

/-- Witness for C6 at concrete columns over `Z/5` with the identity row map. -/
theorem C6_operations_preserve_wf_witness :
    Function.Injective (fun n : ℕ => n + 1) ∧
    ColumnWF (p := 5) [(0, 1), (2, 3)] ∧ ColumnWF (p := 5) [(1, 2), (2, 4)] ∧
    (ColumnWF (ofBoundary (p := 5) [(0, 1), (2, 3)]) ∧
      ColumnWF (addColumns (p := 5) [(0, 1), (2, 3)] [(1, 2), (2, 4)]) ∧
      ColumnWF (mulColumn (p := 5) 3 [(0, 1), (2, 3)]) ∧
      ColumnWF (multiplyTargetAndAdd (2 : ZMod 5) [(0, 1), (2, 3)] [(1, 2), (2, 4)]) ∧
      ColumnWF (reorderColumn (p := 5) (fun n => n + 1) [(0, 1), (2, 3)]) ∧
      ColumnWF (clearRow (p := 5) 2 [(0, 1), (2, 3)]) ∧
      ColumnWF ([] : List (Cell 5))) :=
  ⟨fun a b h => Nat.succ_injective h, by decide, by decide,
    @C6_operations_preserve_wf 5 ⟨by norm_num⟩ 2 3 2 (fun n => n + 1)
      (fun a b h => Nat.succ_injective h) [(0, 1), (2, 3)] [(1, 2), (2, 4)]
      (by decide) (by decide)⟩

/-- Error kind raised by the column arithmetic (spec §7): multiplication of a
chain column by zero throws `std::invalid_argument` in the source. -/
inductive FieldErr where
  | invalidFieldArgument
deriving DecidableEq

/-- A chain column of the naive vector family: the cell content together with
the stored pivot attribute of `Chain_column_option` (the pivot is an `id_index`
with `-1` as the bottom value, modelled as `ℤ`). -/
structure ChainColumn (p : ℕ) where
  content : List (Cell p)
  pivot : ℤ
deriving DecidableEq

/-- `Naive_vector_column::operator*=` for a chain column over `Z/p`
(naive_vector_column.h, lines 658-691): the scalar is first normalized; when
it is the additive identity the function throws before touching any cell or
the stored pivot, so the error branch carries no mutation.  Otherwise all cell
values are scaled (identity scalar short-circuits) and the pivot attribute is
untouched. -/
def chainMulStar {p : ℕ} (col : ChainColumn p) (v : ℕ) :
    Except FieldErr (ChainColumn p) :=
  if (v : ZMod p) = 0 then Except.error FieldErr.invalidFieldArgument
  else if (v : ZMod p) = 1 then Except.ok col
  else Except.ok
    { col with content := col.content.map fun c => (c.1, c.2 * (v : ZMod p)) }

/-- Whether the merge deleted the matched cell sitting at the chain pivot row:
this is the `pivotIsZeroed` flag of `_multiply_target_and_add`
(naive_vector_column.h, lines 996-1071).  The flag is set exactly when the
pivot row was stored in the old content and is no longer stored in the new
one — the only way a stored row disappears in the merge is the matched-cells
branch that sets the flag. -/
def pivotZeroedBy {p : ℕ} (oldContent newContent : List (Cell p)) (piv : ℤ) : Bool :=
  (oldContent.any fun c => (c.1 : ℤ) = piv) &&
    !(newContent.any fun c => (c.1 : ℤ) = piv)

/-- `Naive_vector_column::multiply_target_and_add` for chain columns
(naive_vector_column.h, lines 719-755): a zero coefficient throws
(`Z/2` branch directly, `Z/p` branch as the first statement of
`_multiply_target_and_add`) before any mutation; otherwise the merge runs and,
when the target's stored pivot was zeroed, the pivot attributes of the target
and the source are swapped (`chain_opt::swap_pivots`). -/
def chainMultiplyTargetAndAdd {p : ℕ} (val : ZMod p)
    (target source : ChainColumn p) :
    Except FieldErr (ChainColumn p × ChainColumn p) :=
  if val = 0 then Except.error FieldErr.invalidFieldArgument
  else
    let newContent := mtaMerge val target.content source.content
    if pivotZeroedBy target.content newContent target.pivot then
      Except.ok ({ content := newContent, pivot := source.pivot },
        { source with pivot := target.pivot })
    else
      Except.ok ({ target with content := newContent }, source)

/-- A chain matrix-level scalar multiplication: the exception thrown by the
column aborts the operation and propagates, so the caller's matrix is the
unmodified one (spec §7: the matrix remains consistent; the throw in the
source precedes every mutation of the column). -/
def tryChainMulStar {p : ℕ} (m : List (ChainColumn p)) (i v : ℕ) :
    List (ChainColumn p) :=
  match chainMulStar (m.getD i { content := [], pivot := -1 }) v with
  | Except.ok c => m.set i c
  | Except.error _ => m

/-- C3: multiplying a chain column by a scalar congruent to zero — through
`operator*=` or as the coefficient of `multiply_target_and_add` — raises
`InvalidFieldArgument`, and since the throw precedes every mutation, the
column's content and stored pivot and the enclosing matrix state are left
unchanged (the operation is atomic). -/
theorem C3_chain_multiply_by_zero (p : ℕ) (v : ℕ) (hv : (v : ZMod p) = 0)
    (col target source : ChainColumn p) (m : List (ChainColumn p)) (i : ℕ) :
    chainMulStar col v = Except.error FieldErr.invalidFieldArgument ∧
    chainMultiplyTargetAndAdd (0 : ZMod p) target source =
      Except.error FieldErr.invalidFieldArgument ∧
    tryChainMulStar m i v = m := by
  refine ⟨?_, ?_, ?_⟩
  · rw [chainMulStar, if_pos hv]
  · rw [chainMultiplyTargetAndAdd, if_pos rfl]
  · rw [tryChainMulStar]
    rw [chainMulStar, if_pos hv]

/-- Witness for C3: over `Z/3` the scalar `6` is the additive identity and the
operations error out, leaving the one-column matrix unchanged. -/
theorem C3_chain_multiply_by_zero_witness :
    ((6 : ℕ) : ZMod 3) = 0 ∧
    (chainMulStar (p := 3) ⟨[(0, 1), (2, 2)], 2⟩ 6 =
        Except.error FieldErr.invalidFieldArgument ∧
      chainMultiplyTargetAndAdd (0 : ZMod 3) ⟨[(0, 1), (2, 2)], 2⟩ ⟨[(1, 1)], 1⟩ =
        Except.error FieldErr.invalidFieldArgument ∧
      tryChainMulStar (p := 3) [⟨[(0, 1), (2, 2)], 2⟩] 0 6 =
        [⟨[(0, 1), (2, 2)], 2⟩]) :=
  ⟨by decide,
    C3_chain_multiply_by_zero 3 6 (by decide) ⟨[(0, 1), (2, 2)], 2⟩
      ⟨[(0, 1), (2, 2)], 2⟩ ⟨[(1, 1)], 1⟩ [⟨[(0, 1), (2, 2)], 2⟩] 0⟩

/-- `Vector_chain_column` (chain_vector_column.h): the cell content of the
underlying `Vector_column` base together with the stored attributes
`pivot_ : int` and `pairedColumn_ : int`. -/
structure VectorChainColumn (p : ℕ) where
  content : List (Cell p)
  pivot : ℤ
  pairedColumn : ℤ
deriving DecidableEq

/-- `Vector_column::is_non_zero(row)` on the cell list: whether a cell is
stored at the given row (cells never store zero). -/
def colIsNonZero {p : ℕ} (l : List (Cell p)) (r : ℤ) : Bool :=
  l.any fun c => (c.1 : ℤ) = r

/-- `std::swap(pivotToColumnIndex_->at(k1), pivotToColumnIndex_->at(k2))`
(chain_vector_column.h, lines 198-200): the values mapped by the two keys of
the pivot dictionary are exchanged. -/
def dictSwap (d : List (ℤ × ℕ)) (k1 k2 : ℤ) : List (ℤ × ℕ) :=
  d.map fun e =>
    if e.1 = k1 then (e.1, (d.lookup k2).getD e.2)
    else if e.1 = k2 then (e.1, (d.lookup k1).getD e.2)
    else e

/-- The row stored by the last cell of a column, `-1` when empty: this is the
pivot reading `chain.rbegin()->first` used by the chain constructors
(chain_vector_column.h, lines 92-100), and the largest row of a well-ordered
column. -/
def lastRow {p : ℕ} (l : List (Cell p)) : ℤ :=
  match l.getLast? with
  | some c => (c.1 : ℤ)
  | none => -1

/-- `Vector_chain_column::operator+=` (chain_vector_column.h, lines 191-205):
the base column addition runs first (`Vector_column::operator+=` is not among
the provided sources; it is modelled from the spec's column contract
"field-wise addition; zero entries are removed; order preserved", which is the
`addColumns` merge of `Naive_vector_column::_add`).  When the entry at the
target's stored pivot row was zeroed, the dictionary entries at the two stored
pivots and then the stored pivot attributes are swapped; the source column's
cells are not modified. -/
def vectorChainAddAssign {p : ℕ} (target source : VectorChainColumn p)
    (dict : List (ℤ × ℕ)) :
    VectorChainColumn p × VectorChainColumn p × List (ℤ × ℕ) :=
  let newContent := addColumns target.content source.content
  if colIsNonZero newContent target.pivot then
    ({ target with content := newContent }, source, dict)
  else
    ({ target with content := newContent, pivot := source.pivot },
     { source with pivot := target.pivot },
     dictSwap dict target.pivot source.pivot)

theorem rowLe_getLast {p : ℕ} :
    ∀ (l : List (Cell p)), l.Pairwise (fun a b => a.1 < b.1) →
      ∀ (hne : l ≠ []) (c : Cell p), c ∈ l → c.1 ≤ (l.getLast hne).1 := by
  intro l
  induction l with
  | nil => intro _ hne; exact absurd rfl hne
  | cons a l ih =>
    intro hl hne c hc
    cases l with
    | nil =>
      rcases List.mem_singleton.1 hc with rfl
      exact le_refl _
    | cons b l' =>
      rw [List.getLast_cons (by simp)]
      rcases List.mem_cons.1 hc with rfl | hc'
      · exact le_of_lt (SortedRows.head_lt hl _ (List.getLast_mem (by simp)))
      · exact ih (List.pairwise_cons.1 hl).2 (by simp) c hc'

theorem lastRow_eq_getLast {p : ℕ} {l : List (Cell p)} (hne : l ≠ []) :
    lastRow l = ((l.getLast hne).1 : ℤ) := by
  rw [lastRow, List.getLast?_eq_getLast l hne]

theorem le_lastRow {p : ℕ} {l : List (Cell p)}
    (hl : l.Pairwise (fun a b => a.1 < b.1)) {c : Cell p} (hc : c ∈ l) :
    (c.1 : ℤ) ≤ lastRow l := by
  have hne : l ≠ [] := List.ne_nil_of_mem hc
  rw [lastRow_eq_getLast hne]
  exact_mod_cast rowLe_getLast l hl hne c hc

theorem lastRow_mem {p : ℕ} {l : List (Cell p)} (hne : l ≠ []) :
    ∃ c ∈ l, (c.1 : ℤ) = lastRow l :=
  ⟨l.getLast hne, List.getLast_mem hne, (lastRow_eq_getLast hne).symm⟩

theorem colIsNonZero_iff {p : ℕ} (l : List (Cell p)) (r : ℤ) :
    colIsNonZero l r = true ↔ ∃ c ∈ l, (c.1 : ℤ) = r := by
  rw [colIsNonZero, List.any_eq_true]
  constructor
  · rintro ⟨c, hc, h⟩
    exact ⟨c, hc, by simpa using h⟩
  · rintro ⟨c, hc, h⟩
    exact ⟨c, hc, by simpa using h⟩

theorem mem_rows_of_valueAt_ne_zero {p : ℕ} {l : List (Cell p)} {r : ℕ}
    (h : valueAt l r ≠ 0) : r ∈ l.map Prod.fst := by
  by_contra hmem
  exact h (valueAt_eq_zero_of_not_mem hmem)

theorem lookup_cons_ite {α β : Type} [DecidableEq α] (e : α × β) (es : List (α × β))
    (k : α) :
    (e :: es).lookup k = if k = e.1 then some e.2 else es.lookup k := by
  rcases e with ⟨a, b⟩
  rw [List.lookup_cons]
  by_cases h : k = a
  · simp [h]
  · have hb : (k == a) = false := by simpa using h
    simp [hb, h]

theorem lookup_map_swapFun_k1 {d : List (ℤ × ℕ)} {k1 k2 : ℤ} :
    ∀ (d' : List (ℤ × ℕ)) (a : ℕ), d'.lookup k1 = some a →
      (d'.map fun e =>
        if e.1 = k1 then (e.1, (d.lookup k2).getD e.2)
        else if e.1 = k2 then (e.1, (d.lookup k1).getD e.2)
        else e).lookup k1 = some ((d.lookup k2).getD a) := by
  intro d'
  induction d' with
  | nil => intro a ha; cases ha
  | cons e es ih =>
    intro a ha
    rw [lookup_cons_ite] at ha
    rw [List.map_cons, lookup_cons_ite]
    by_cases he : e.1 = k1
    · rw [if_pos he.symm] at ha
      cases ha
      rw [if_pos he]
      rw [if_pos (by rw [he])]
    · rw [if_neg (fun h => he h.symm)] at ha
      have hkey : (if e.1 = k1 then (e.1, (d.lookup k2).getD e.2)
          else if e.1 = k2 then (e.1, (d.lookup k1).getD e.2) else e).1 = e.1 := by
        rw [if_neg he]
        by_cases he2 : e.1 = k2
        · rw [if_pos he2]
        · rw [if_neg he2]
      rw [hkey, if_neg (fun h => he h.symm)]
      exact ih a ha

theorem lookup_map_swapFun_k2 {d : List (ℤ × ℕ)} {k1 k2 : ℤ} (hne : k1 ≠ k2) :
    ∀ (d' : List (ℤ × ℕ)) (a : ℕ), d'.lookup k2 = some a →
      (d'.map fun e =>
        if e.1 = k1 then (e.1, (d.lookup k2).getD e.2)
        else if e.1 = k2 then (e.1, (d.lookup k1).getD e.2)
        else e).lookup k2 = some ((d.lookup k1).getD a) := by
  intro d'
  induction d' with
  | nil => intro a ha; cases ha
  | cons e es ih =>
    intro a ha
    rw [lookup_cons_ite] at ha
    rw [List.map_cons, lookup_cons_ite]
    by_cases he2 : e.1 = k2
    · rw [if_pos he2.symm] at ha
      cases ha
      have he1 : ¬ e.1 = k1 := fun h => hne (by rw [← h, he2])
      rw [if_neg he1, if_pos he2]
      rw [if_pos (by rw [he2])]
    · rw [if_neg (fun h => he2 h.symm)] at ha
      have hkey : (if e.1 = k1 then (e.1, (d.lookup k2).getD e.2)
          else if e.1 = k2 then (e.1, (d.lookup k1).getD e.2) else e).1 = e.1 := by
        by_cases he1 : e.1 = k1
        · rw [if_pos he1]
        · rw [if_neg he1, if_neg he2]
      rw [hkey, if_neg (fun h => he2 h.symm)]
      exact ih a ha

theorem dictSwap_lookup_k1 {d : List (ℤ × ℕ)} {k1 k2 : ℤ} {a b : ℕ}
    (h1 : d.lookup k1 = some a) (h2 : d.lookup k2 = some b) :
    (dictSwap d k1 k2).lookup k1 = some b := by
  rw [dictSwap, lookup_map_swapFun_k1 d a h1, h2]
  rfl

theorem dictSwap_lookup_k2 {d : List (ℤ × ℕ)} {k1 k2 : ℤ} {a b : ℕ}
    (hne : k1 ≠ k2) (h1 : d.lookup k1 = some a) (h2 : d.lookup k2 = some b) :
    (dictSwap d k1 k2).lookup k2 = some a := by
  rw [dictSwap, lookup_map_swapFun_k2 hne d b h2, h1]
  rfl

/-- When the base addition zeroes the entry at the target's largest row, the
largest row of the sum is the source's largest row. -/
theorem lastRow_addColumns_of_pivot_zeroed {p : ℕ} {t s : List (Cell p)}
    (hts : ColumnWF t) (hss : ColumnWF s)
    (htne : t ≠ []) (hsne : s ≠ []) (hne : lastRow t ≠ lastRow s)
    (hz : colIsNonZero (addColumns t s) (lastRow t) = false) :
    lastRow (addColumns t s) = lastRow s := by
  have hadd_sorted := sorted_addColumns t s hts.1 hss.1
  have hlt : lastRow t < lastRow s := by
    rcases lt_or_gt_of_ne hne with h | h
    · exact h
    · exfalso
      rcases lastRow_mem htne with ⟨c1, hc1, hr1⟩
      have hvs : valueAt s c1.1 = 0 := by
        refine valueAt_eq_zero_of_not_mem fun hmem => ?_
        rcases List.mem_map.1 hmem with ⟨d, hd, hd1⟩
        have := le_lastRow hss.1 hd
        rw [hd1] at this
        omega
      have hvt : valueAt t c1.1 = c1.2 := by
        refine valueAt_eq_of_mem ?_ (rows_nodup_of_sorted hts.1)
        rcases c1 with ⟨r1, v1⟩
        exact hc1
      have hvadd : valueAt (addColumns t s) c1.1 ≠ 0 := by
        rw [valueAt_addColumns t s hts.1 hss.1 c1.1, hvs, hvt, add_zero]
        exact hts.2 c1 hc1
      have hmem := mem_rows_of_valueAt_ne_zero hvadd
      rcases List.mem_map.1 hmem with ⟨d, hd, hd1⟩
      have : colIsNonZero (addColumns t s) (lastRow t) = true :=
        (colIsNonZero_iff _ _).2 ⟨d, hd, by rw [hd1, hr1]⟩
      rw [hz] at this
      cases this
  rcases lastRow_mem hsne with ⟨c2, hc2, hr2⟩
  have hvt : valueAt t c2.1 = 0 := by
    refine valueAt_eq_zero_of_not_mem fun hmem => ?_
    rcases List.mem_map.1 hmem with ⟨d, hd, hd1⟩
    have := le_lastRow hts.1 hd
    rw [hd1] at this
    omega
  have hvs : valueAt s c2.1 = c2.2 := by
    refine valueAt_eq_of_mem ?_ (rows_nodup_of_sorted hss.1)
    rcases c2 with ⟨r2, v2⟩
    exact hc2
  have hvadd : valueAt (addColumns t s) c2.1 ≠ 0 := by
    rw [valueAt_addColumns t s hts.1 hss.1 c2.1, hvt, hvs, zero_add]
    exact hss.2 c2 hc2
  rcases List.mem_map.1 (mem_rows_of_valueAt_ne_zero hvadd) with ⟨cadd, hcadd, hcadd1⟩
  have haddne : addColumns t s ≠ [] := List.ne_nil_of_mem hcadd
  have hbound : ∀ c ∈ addColumns t s, (c.1 : ℤ) ≤ (c2.1 : ℤ) := by
    intro c hc
    rcases mem_rows_addColumns t s c hc with h | h
    · rcases List.mem_map.1 h with ⟨d, hd, hd1⟩
      have := le_lastRow hts.1 hd
      rw [hd1] at this
      omega
    · rcases List.mem_map.1 h with ⟨d, hd, hd1⟩
      have := le_lastRow hss.1 hd
      rw [hd1] at this
      omega
  have h1 : lastRow (addColumns t s) ≤ (c2.1 : ℤ) := by
    rw [lastRow_eq_getLast haddne]
    exact hbound _ (List.getLast_mem haddne)
  have h2 : (c2.1 : ℤ) ≤ lastRow (addColumns t s) := by
    rw [← hcadd1]
    exact_mod_cast le_lastRow hadd_sorted hcadd
  rw [← hr2]
  omega

/-- C7 amended: when adding one chain column into another zeroes the entry at
the target's stored pivot row, the stored pivots and the dictionary entries at
the two pivots are swapped; afterwards the *target's* stored pivot again
equals the largest row of its content and the dictionary maps each column's
stored pivot to that column's index.  (The source's stored pivot, now the
target's old pivot, need not equal the largest row of the source's unchanged
content; see the counterexample.) -/
theorem C7_chain_add_pivot_swap (p : ℕ) (target source : VectorChainColumn p)
    (dict : List (ℤ × ℕ)) (ti si : ℕ)
    (hts : ColumnWF target.content) (hss : ColumnWF source.content)
    (hpt : target.pivot = lastRow target.content)
    (hps : source.pivot = lastRow source.content)
    (htne : target.content ≠ []) (hsne : source.content ≠ [])
    (hne : target.pivot ≠ source.pivot)
    (hz : colIsNonZero (addColumns target.content source.content) target.pivot
      = false)
    (hk1 : dict.lookup target.pivot = some ti)
    (hk2 : dict.lookup source.pivot = some si) :
    (vectorChainAddAssign target source dict).1.pivot = source.pivot ∧
    (vectorChainAddAssign target source dict).2.1.pivot = target.pivot ∧
    (vectorChainAddAssign target source dict).2.1.content = source.content ∧
    (vectorChainAddAssign target source dict).1.pivot =
      lastRow (vectorChainAddAssign target source dict).1.content ∧
    ((vectorChainAddAssign target source dict).2.2).lookup
      ((vectorChainAddAssign target source dict).1.pivot) = some ti ∧
    ((vectorChainAddAssign target source dict).2.2).lookup
      ((vectorChainAddAssign target source dict).2.1.pivot) = some si := by
  have hcond : ¬ (colIsNonZero (addColumns target.content source.content)
      target.pivot = true) := by
    rw [hz]
    exact Bool.false_ne_true
  rw [vectorChainAddAssign]
  rw [if_neg hcond]
  refine ⟨rfl, rfl, rfl, ?_, ?_, ?_⟩
  · show source.pivot = lastRow (addColumns target.content source.content)
    rw [hps]
    rw [hpt, hps] at hne
    rw [hpt] at hz
    exact (lastRow_addColumns_of_pivot_zeroed hts hss htne hsne hne hz).symm
  · exact dictSwap_lookup_k2 hne hk1 hk2
  · exact dictSwap_lookup_k1 hk1 hk2

/-- Counterexample to C7 as stated: over `Z/2`, adding the source
`{3, 5}` (stored pivot `5`) into the target `{0, 3}` (stored pivot `3`)
zeroes the target's pivot entry and swaps the pivots, but afterwards the
*source* column's stored pivot is `3` while the largest row of its (unchanged)
content is `5` — so not *every* chain column's stored pivot equals the largest
row of its content after the operation. -/
theorem C7_counterexample_source_pivot :
    colIsNonZero
      (addColumns (p := 2) [(0, 1), (3, 1)] [(3, 1), (5, 1)]) 3 = false ∧
    (vectorChainAddAssign (p := 2) ⟨[(0, 1), (3, 1)], 3, -1⟩
      ⟨[(3, 1), (5, 1)], 5, -1⟩ [(3, 0), (5, 1)]).2.1.pivot = 3 ∧
    lastRow (vectorChainAddAssign (p := 2) ⟨[(0, 1), (3, 1)], 3, -1⟩
      ⟨[(3, 1), (5, 1)], 5, -1⟩ [(3, 0), (5, 1)]).2.1.content = 5 ∧
    (3 : ℤ) ≠ 5 := by
  refine ⟨by simp +decide [addColumns, colIsNonZero],
    by simp +decide [vectorChainAddAssign, addColumns, colIsNonZero],
    by simp +decide [vectorChainAddAssign, addColumns, colIsNonZero, lastRow],
    by decide⟩

/-- Witness for the amended C7 at the same concrete input. -/
theorem C7_chain_add_pivot_swap_witness :
    (vectorChainAddAssign (p := 2) ⟨[(0, 1), (3, 1)], 3, -1⟩
      ⟨[(3, 1), (5, 1)], 5, -1⟩ [(3, 0), (5, 1)]).1.pivot = 5 ∧
    (vectorChainAddAssign (p := 2) ⟨[(0, 1), (3, 1)], 3, -1⟩
      ⟨[(3, 1), (5, 1)], 5, -1⟩ [(3, 0), (5, 1)]).1.pivot =
      lastRow (vectorChainAddAssign (p := 2) ⟨[(0, 1), (3, 1)], 3, -1⟩
        ⟨[(3, 1), (5, 1)], 5, -1⟩ [(3, 0), (5, 1)]).1.content ∧
    ((vectorChainAddAssign (p := 2) ⟨[(0, 1), (3, 1)], 3, -1⟩
      ⟨[(3, 1), (5, 1)], 5, -1⟩ [(3, 0), (5, 1)]).2.2).lookup 5 = some 0 := by
  have h := C7_chain_add_pivot_swap 2 ⟨[(0, 1), (3, 1)], 3, -1⟩
    ⟨[(3, 1), (5, 1)], 5, -1⟩ [(3, 0), (5, 1)] 0 1
    (by decide) (by decide) (by decide) (by decide) (by decide) (by decide)
    (by decide) (by simp +decide [addColumns, colIsNonZero]) (by decide) (by decide)
  refine ⟨?_, h.2.2.2.1, ?_⟩
  · rw [h.1]
  · have h6 := h.2.2.2.2.1
    rw [h.1] at h6
    exact h6

/-- `Z2_unordered_set_column` (z2_unordered_set_column.h): the member state
`dim_`, `column_` (an unordered set of row indices, modelled as the list of
its elements in iteration order), the lazy-pivot cache `pivot_` and its dirty
flag `pivotChanged_`. -/
structure Z2USetColumn where
  dim : ℤ
  column : List ℕ
  pivotChanged : Bool
  pivot : ℤ
deriving DecidableEq

/-- The largest element of the set, `-1` when empty: the
`*std::max_element` reading used by the constructor and by `get_pivot`. -/
def maxElement (l : List ℕ) : ℤ :=
  match l.max? with
  | some m => (m : ℤ)
  | none => -1

/-- The boundary constructor (z2_unordered_set_column.h, lines 57-62):
`pivot_` is the largest boundary element (or `-1`), the dirty flag starts
clean. -/
def Z2USetColumn.ofBoundary (boundary : List ℕ) : Z2USetColumn :=
  { dim := if boundary = [] then 0 else (boundary.length : ℤ) - 1,
    column := boundary,
    pivotChanged := false,
    pivot := maxElement boundary }

/-- `Z2_unordered_set_column::get_pivot` (lines 99-109): when the dirty flag
is set, recompute the pivot as the maximum of the stored elements and clear
the flag; otherwise return the cached pivot.  The method mutates the column,
so the model returns the updated state alongside the result. -/
def Z2USetColumn.getPivot (c : Z2USetColumn) : ℤ × Z2USetColumn :=
  if c.pivotChanged then
    let p := maxElement c.column
    (p, { c with pivot := p, pivotChanged := false })
  else (c.pivot, c)

/-- `Z2_unordered_set_column::clear(value)` (lines 118-122): erase the value
and mark the pivot dirty when the erased value was the cached pivot. -/
def Z2USetColumn.clearValue (c : Z2USetColumn) (v : ℕ) : Z2USetColumn :=
  { c with column := c.column.erase v,
           pivotChanged := if (v : ℤ) = c.pivot then true else c.pivotChanged }

/-- `Z2_unordered_set_column::reorder(valueMap)` (lines 124-130): rebuild the
set through the map and mark the pivot dirty.  `valueMap.at` is total here via
`getD`; it is only used with in-range indices. -/
def Z2USetColumn.reorder (c : Z2USetColumn) (valueMap : List ℕ) : Z2USetColumn :=
  { c with column := c.column.map fun v => valueMap.getD v 0,
           pivotChanged := true }

/-- `Z2_unordered_set_column::add` (lines 132-146): symmetric difference of
the sets.  A removed value that equals the cached pivot sets the dirty flag;
an inserted value larger than the cached pivot overwrites the pivot and
*clears* the dirty flag.  Elements of the source set are processed in
iteration order; insertion order inside the unordered set is unspecified, the
model prepends. -/
def Z2USetColumn.add (c : Z2USetColumn) (other : Z2USetColumn) : Z2USetColumn :=
  other.column.foldl (fun acc v =>
    if v ∈ acc.column then
      { acc with column := acc.column.erase v,
                 pivotChanged := if (v : ℤ) = acc.pivot then true else acc.pivotChanged }
    else
      { acc with column := v :: acc.column,
                 pivot := if (v : ℤ) > acc.pivot then (v : ℤ) else acc.pivot,
                 pivotChanged := if (v : ℤ) > acc.pivot then false else acc.pivotChanged })
    c

/-- C5 evaluated at the failing input: starting from the column `{0}`
(cached pivot `0`), `reorder` with the map sending row `0` to row `5` leaves
the stale cached pivot `0` with the dirty flag set; adding the column `{3}`
then inserts `3`, and since `3 > 0` the code overwrites the pivot with `3`
and *clears* the dirty flag, although `5` is still stored.  `get_pivot()`
afterwards returns `3` while the largest row present is `5` — the code
violates the claim (spec P3). -/
theorem C5_unordered_set_pivot_bug :
    (((Z2USetColumn.ofBoundary [0]).reorder [5]).add
        (Z2USetColumn.ofBoundary [3])).getPivot.1 = 3 ∧
    (((Z2USetColumn.ofBoundary [0]).reorder [5]).add
        (Z2USetColumn.ofBoundary [3])).column = [3, 5] ∧
    maxElement ((((Z2USetColumn.ofBoundary [0]).reorder [5]).add
        (Z2USetColumn.ofBoundary [3])).column) = 5 ∧
    (3 : ℤ) ≠ 5 := by
  refine ⟨by decide, by decide, by decide, by decide⟩

/-- `Tower_converter` state (tower_converter.h): the external-to-internal
vertex dictionary `vertices_`, the underlying complex, the output stream
(modelled as the list of streamed `(simplex, timestamp)` records; when no
output file is configured the stream is absent and only `filtrationSize_`
advances, which the frame theorem does not distinguish), and the counters
`filtrationSize_` and `towerWidth_`.  Timestamps are opaque (`double` in the
source) and vertex identifiers are modelled as `ℕ`; they are only stored,
compared and ordered. -/
structure TowerState (τ : Type) where
  vertices : List (ℕ × ℕ)
  complex : List (List ℕ)
  outputStream : List (List ℕ × τ)
  filtrationSize : ℕ
  towerWidth : ℕ
deriving DecidableEq

/-- Modelled from the spec: the `ComplexStructure` collaborator
(`complex_->insert_simplex` and `complex_->get_size`) is not part of the
provided sources; per the spec it is the simplex container of the tower,
where `insert_simplex` returns whether the simplex was newly inserted and
`get_size` is the number of simplices.  This function is the tail of
`Tower_converter::add_insertion` (tower_converter.h, lines 204-210): on a
successful insertion the simplex is streamed (`stream_simplex`, lines
289-310, which increments `filtrationSize_` and appends the record) and the
tower width is raised to the new complex size when it grew past it. -/
def insertStep {τ : Type} (s : TowerState τ) (transSimplex : List ℕ)
    (timestamp : τ) : Bool × TowerState τ :=
  if transSimplex ∈ s.complex then (false, s)
  else
    let complex' := transSimplex :: s.complex
    (true,
      { s with
        complex := complex',
        filtrationSize := s.filtrationSize + 1,
        outputStream := s.outputStream ++ [(transSimplex, timestamp)],
        towerWidth := if complex'.length > s.towerWidth then complex'.length
          else s.towerWidth })

/-- `Tower_converter::add_insertion` (tower_converter.h, lines 189-211): a
vertex is self-registered in the dictionary (`emplace` keeps an existing
entry); a higher simplex is translated through the dictionary
(`vertices_->at` throws on an unknown vertex, modelled by `none`) and sorted;
the translated simplex is then offered to the complex. -/
def addInsertion {τ : Type} (s : TowerState τ) (simplex : List ℕ)
    (timestamp : τ) : Option (Bool × TowerState τ) :=
  if simplex.length = 1 then
    let v := simplex.headD 0
    let vertices' := if (s.vertices.lookup v).isSome then s.vertices
      else s.vertices ++ [(v, v)]
    some (insertStep { s with vertices := vertices' } [v] timestamp)
  else
    match simplex.mapM (fun v => s.vertices.lookup v) with
    | none => none
    | some translated =>
      some (insertStep s (translated.mergeSort fun a b => a ≤ b) timestamp)

/-- C10: `add_insertion` returns `true` exactly when the translated simplex
was newly inserted into the underlying complex (the complex grows by that one
simplex); when it returns `false`, the filtration size, the tower width and
the output stream are all left unchanged. -/
theorem C10_add_insertion_frame {τ : Type} (s : TowerState τ)
    (simplex : List ℕ) (timestamp : τ) (b : Bool) (s' : TowerState τ)
    (h : addInsertion s simplex timestamp = some (b, s')) :
    (b = true ↔ s'.complex ≠ s.complex) ∧
    (b = true → ∃ trans, trans ∉ s.complex ∧ s'.complex = trans :: s.complex) ∧
    (b = false → s'.filtrationSize = s.filtrationSize ∧
      s'.towerWidth = s.towerWidth ∧ s'.outputStream = s.outputStream) := by
  have main : ∀ (s0 : TowerState τ) (trans : List ℕ),
      insertStep s0 trans timestamp = (b, s') → s0.complex = s.complex →
      s0.filtrationSize = s.filtrationSize → s0.towerWidth = s.towerWidth →
      s0.outputStream = s.outputStream →
      (b = true ↔ s'.complex ≠ s.complex) ∧
      (b = true → ∃ tr, tr ∉ s.complex ∧ s'.complex = tr :: s.complex) ∧
      (b = false → s'.filtrationSize = s.filtrationSize ∧
        s'.towerWidth = s.towerWidth ∧ s'.outputStream = s.outputStream) := by
    intro s0 trans hstep hc hf hw ho
    rw [insertStep] at hstep
    by_cases hmem : trans ∈ s0.complex
    · rw [if_pos hmem] at hstep
      cases hstep
      refine ⟨⟨fun hb => absurd hb (by simp), fun hne => absurd hc hne⟩,
        fun hb => absurd hb (by simp), fun _ => ⟨hf, hw, ho⟩⟩
    · rw [if_neg hmem] at hstep
      cases hstep
      refine ⟨⟨fun _ => ?_, fun _ => rfl⟩, fun _ => ⟨trans, hc ▸ hmem, by rw [hc]⟩,
        fun hb => absurd hb (by simp)⟩
      show trans :: s0.complex ≠ s.complex
      rw [hc]
      exact List.cons_ne_self trans s.complex
  rw [addInsertion] at h
  by_cases h1 : simplex.length = 1
  · rw [if_pos h1] at h
    simp only [Option.some_inj] at h
    exact main _ _ h rfl rfl rfl rfl
  · rw [if_neg h1] at h
    rcases hm : simplex.mapM (fun v => s.vertices.lookup v) with _ | translated
    · rw [hm] at h
      cases h
    · rw [hm] at h
      simp only [Option.some_inj] at h
      exact main _ _ h rfl rfl rfl rfl

/-- A concrete tower-converter state for the C10 witness. -/
def towerExample : TowerState ℕ :=
  { vertices := [(1, 1)], complex := [[1]], outputStream := [([1], 7)],
    filtrationSize := 1, towerWidth := 1 }

/-- Witness for C10: re-inserting the already-present vertex simplex `[1]`
returns `false` and leaves every observable unchanged. -/
theorem C10_add_insertion_frame_witness :
    addInsertion towerExample [1] 9 = some (false, towerExample) ∧
    ((false = true ↔ towerExample.complex ≠ towerExample.complex) ∧
      (false = true → ∃ trans, trans ∉ towerExample.complex ∧
        towerExample.complex = trans :: towerExample.complex) ∧
      (false = false → towerExample.filtrationSize = towerExample.filtrationSize ∧
        towerExample.towerWidth = towerExample.towerWidth ∧
        towerExample.outputStream = towerExample.outputStream)) :=
  ⟨by decide,
    C10_add_insertion_frame towerExample [1] 9 false towerExample (by decide)⟩

/-- `Naive_vector_column::_add` (naive_vector_column.h, lines 917-994), the
`Z/2` branch used by the compressed base matrix: merge of two row-index lists
where matching rows cancel (the cell is deleted), written into a fresh buffer
swapped in at the end. -/
def mergeZ2 : List ℕ → List ℕ → List ℕ
  | [], source => source
  | t :: target, [] => t :: target
  | t :: target, s :: source =>
    if t < s then t :: mergeZ2 target (s :: source)
    else if s < t then s :: mergeZ2 (t :: target) source
    else mergeZ2 target source
termination_by t s => t.length + s.length

/-- `Base_matrix_with_column_compression` over `Z/2`
(base_matrix_with_column_compression.h): `columnClasses_` is the boost
union-find (`parent`/`rank` arrays; `disjoint_sets_with_storage` with
union-by-rank and path compression, modelled with a flattened parent array —
path compression does not change representatives, and the rank evolution and
hence the chosen representatives coincide with boost's); `repToColumn_` maps a
representative index to its physical column (`none` mirrors a null pointer).
The dictionary `columnToRep_` keyed by column content is recovered as the set
of non-null representatives, which `_insert_column` searches by content.
`nextColumnIndex_` always equals `repToColumn_.size()` on the growth path
modelled here (the default-constructed matrix; `insert_boundary` always takes
the `push_back` branch). -/
structure CompState where
  parent : List ℕ
  rank : List ℕ
  repToColumn : List (Option (List ℕ))
deriving DecidableEq

/-- `columnClasses_.find_set(i)`: the class representative.  The parent array
is kept flat, so a single lookup suffices; indices outside the array are their
own representatives (they are never queried by the source). -/
def CompState.find (m : CompState) (i : ℕ) : ℕ := m.parent.getD i i

/-- The index that wins `columnClasses_.link(x, y)` under boost's
union-by-rank: `x` when `rank[x] > rank[y]`, else `y`. -/
def CompState.linkWinner (m : CompState) (x y : ℕ) : ℕ :=
  if m.rank.getD y 0 < m.rank.getD x 0 then x else y

/-- The index that loses `columnClasses_.link(x, y)`. -/
def CompState.linkLoser (m : CompState) (x y : ℕ) : ℕ :=
  if m.rank.getD y 0 < m.rank.getD x 0 then y else x

/-- `columnClasses_.link(x, y)` on representatives (boost
`detail::link_sets`): the loser's tree is attached to the winner — flattened,
every index pointing at the loser now points at the winner — and on a rank tie
the winner's rank is bumped. -/
def CompState.link (m : CompState) (x y : ℕ) : CompState :=
  if m.rank.getD y 0 < m.rank.getD x 0 then
    { m with parent := m.parent.map fun q => if q = y then x else q }
  else
    { m with
      parent := m.parent.map fun q => if q = x then y else q,
      rank := if m.rank.getD x 0 = m.rank.getD y 0
        then m.rank.set y (m.rank.getD y 0 + 1) else m.rank }

/-- The physical column reached from index `i`: `repToColumn_[find_set(i)]`,
as in `get_column` (base_matrix_with_column_compression.h, lines 520-527); a
null pointer stands for the shared static empty column. -/
def CompState.getColumnEntry (m : CompState) (i : ℕ) : Option (List ℕ) :=
  m.repToColumn.getD (m.find i) none

/-- The content of the column resolved from index `i`; the shared static
empty column (`empty_column_`) reads as the empty cell list. -/
def CompState.contentOf (m : CompState) (i : ℕ) : List ℕ :=
  match m.getColumnEntry i with
  | some col => col
  | none => []

/-- The search performed by `columnToRep_.insert(col)` in `_insert_column`
(lines 680-696): an already-present column with the same content, i.e. another
non-null representative holding an equal cell list. -/
def CompState.findDup (m : CompState) (i : ℕ) (col : List ℕ) : Option ℕ :=
  (List.range m.repToColumn.length).find? fun j =>
    decide (j ≠ i) && decide (m.repToColumn.getD j none = some col)

/-- `Base_matrix_with_column_compression::_insert_double_column`
(lines 698-713): link the two classes; the redundant physical column at
`columnIndex` is destroyed, and if the union made `columnIndex` the new
representative, the surviving column is moved there
(`std::swap(repToColumn_[doubleRep], repToColumn_[columnIndex])`). -/
def CompState.insertDoubleColumn (m : CompState) (i j : ℕ) : CompState :=
  let m1 := m.link i j
  let newRep := m1.find i
  if newRep = i then
    { m1 with
      repToColumn := (m1.repToColumn.set i (m1.repToColumn.getD j none)).set j none }
  else
    { m1 with repToColumn := m1.repToColumn.set i none }

/-- `Base_matrix_with_column_compression::_insert_column` (lines 680-696): an
empty column is destroyed and its slot nulled; otherwise the column is offered
to the content dictionary and, when an equal column already exists, the two
classes are merged by `_insert_double_column`. -/
def CompState.insertColumn (m : CompState) (i : ℕ) : CompState :=
  match m.repToColumn.getD i none with
  | none => m
  | some col =>
    if col = [] then { m with repToColumn := m.repToColumn.set i none }
    else
      match m.findDup i col with
      | none => m
      | some j => m.insertDoubleColumn i j

/-- `Base_matrix_with_column_compression::insert_boundary` (lines 476-518) on
the growth path: a fresh union-find singleton is created for the new index
(`link(next, next)`, which bumps its rank from 0 to 1), the new column is
constructed from the boundary and pushed, and `_insert_column` runs. -/
def CompState.insertBoundary (m : CompState) (boundary : List ℕ) : CompState :=
  let n := m.repToColumn.length
  let m1 : CompState :=
    { parent := m.parent ++ [n], rank := m.rank ++ [0],
      repToColumn := m.repToColumn ++ [some boundary] }
  let m2 := m1.link n n
  m2.insertColumn n

/-- `Base_matrix_with_column_compression::add_to(sourceColumn,
targetColumnIndex)` (lines 553-568) with a column-index source: the target
resolves to its representative, whose column receives
`target += get_column(source)` (`none` models the null-pointer dereference
when the target class holds the empty column), and `_insert_column`
re-registers the changed column.  The source content is the one read through
`get_column` before the write, which is also what the in-place C++ merge
computes when source and target alias. -/
def CompState.addTo (m : CompState) (src tgt : ℕ) : Option CompState :=
  let tRep := m.find tgt
  match m.repToColumn.getD tRep none with
  | none => none
  | some tcol =>
    let m1 : CompState :=
      { m with repToColumn :=
          m.repToColumn.set tRep (some (mergeZ2 tcol (m.contentOf src))) }
    some (m1.insertColumn tRep)

/-- `get_number_of_columns` (lines 546-551): `nextColumnIndex_`, which on the
modelled growth path equals the number of stored column slots. -/
def CompState.getNumberOfColumns (m : CompState) : ℕ := m.repToColumn.length

/-- `is_zero_column` (lines 612-618): a null representative pointer counts as
zero, otherwise the column's emptiness is checked. -/
def CompState.isZeroColumn (m : CompState) (i : ℕ) : Bool :=
  match m.getColumnEntry i with
  | none => true
  | some col => col.isEmpty

/-- `is_zero_cell` (lines 604-610): a null representative pointer counts as
zero, otherwise membership of the row in the column is checked
(`is_non_zero`). -/
def CompState.isZeroCell (m : CompState) (i r : ℕ) : Bool :=
  match m.getColumnEntry i with
  | none => true
  | some col => ! (col.contains r)

/-- The operations of the compressed base matrix exercised by the claims. -/
inductive MatrixOp where
  | insert (boundary : List ℕ)
  | add (src tgt : ℕ)
deriving DecidableEq

/-- One matrix operation; an `add_to` whose target class holds no physical
column dereferences a null pointer in the source and is modelled as a no-op
(such calls are outside the defined behaviour). -/
def CompState.applyOp (m : CompState) : MatrixOp → CompState
  | MatrixOp.insert bd => m.insertBoundary bd
  | MatrixOp.add src tgt => (m.addTo src tgt).getD m

def CompState.applyOps (m : CompState) (ops : List MatrixOp) : CompState :=
  ops.foldl CompState.applyOp m

/-- The default-constructed empty matrix. -/
def CompState.initial : CompState := { parent := [], rank := [], repToColumn := [] }

/-- Union-find well-formedness: the rank array tracks the parent array, and
representatives are in range and idempotent (a flat forest). -/
def CompState.UFInv (m : CompState) : Prop :=
  m.rank.length = m.parent.length ∧
  (∀ i, i < m.parent.length → m.find i < m.parent.length) ∧
  (∀ i, i < m.parent.length → m.find (m.find i) = m.find i)

/-- Matrix well-formedness: union-find well-formedness, the column table
tracking the union-find, and every non-null column slot sitting at a class
representative. -/
def CompState.Inv (m : CompState) : Prop :=
  m.UFInv ∧ m.repToColumn.length = m.parent.length ∧
  (∀ i, i < m.parent.length → m.repToColumn.getD i none ≠ none → m.find i = i)

instance (m : CompState) : Decidable m.UFInv :=
  inferInstanceAs (Decidable (_ ∧ _ ∧ _))

instance (m : CompState) : Decidable m.Inv :=
  inferInstanceAs (Decidable (_ ∧ _ ∧ _))

theorem getD_set_self {α : Type} {l : List α} {i : ℕ} (h : i < l.length)
    (a d : α) : (l.set i a).getD i d = a := by
  rw [List.getD_eq_getElem?_getD, List.getElem?_set_self h]
  rfl

theorem getD_set_ne {α : Type} {l : List α} {i j : ℕ} (h : i ≠ j) (a d : α) :
    (l.set i a).getD j d = l.getD j d := by
  rw [List.getD_eq_getElem?_getD, List.getElem?_set_ne h, List.getD_eq_getElem?_getD]

theorem getD_append_last {α : Type} (l : List α) (a d : α) :
    (l ++ [a]).getD l.length d = a := by
  rw [List.getD_eq_getElem?_getD, List.getElem?_append_right (le_refl _)]
  simp

theorem getD_map_of_lt {l : List ℕ} {f : ℕ → ℕ} {i : ℕ} (h : i < l.length)
    (d d' : ℕ) : (l.map f).getD i d = f (l.getD i d') := by
  rw [List.getD_eq_getElem?_getD, List.getElem?_map, List.getElem?_eq_getElem h]
  rw [List.getD_eq_getElem?_getD, List.getElem?_eq_getElem h]
  rfl

theorem CompState.link_parent (m : CompState) (x y : ℕ) :
    (m.link x y).parent =
      m.parent.map fun q => if q = m.linkLoser x y then m.linkWinner x y else q := by
  rw [CompState.link, CompState.linkWinner, CompState.linkLoser]
  by_cases h : m.rank.getD y 0 < m.rank.getD x 0
  · rw [if_pos h, if_pos h, if_pos h]
  · rw [if_neg h, if_neg h, if_neg h]

theorem CompState.link_repToColumn (m : CompState) (x y : ℕ) :
    (m.link x y).repToColumn = m.repToColumn := by
  rw [CompState.link]
  by_cases h : m.rank.getD y 0 < m.rank.getD x 0
  · rw [if_pos h]
  · rw [if_neg h]

theorem CompState.link_rank_length (m : CompState) (x y : ℕ) :
    (m.link x y).rank.length = m.rank.length := by
  rw [CompState.link]
  by_cases h : m.rank.getD y 0 < m.rank.getD x 0
  · rw [if_pos h]
  · rw [if_neg h]
    by_cases h2 : m.rank.getD x 0 = m.rank.getD y 0
    · simp only [if_pos h2, List.length_set]
    · rw [if_neg h2]

theorem CompState.link_parent_length (m : CompState) (x y : ℕ) :
    (m.link x y).parent.length = m.parent.length := by
  rw [CompState.link_parent, List.length_map]

theorem CompState.linkWinner_or (m : CompState) (x y : ℕ) :
    (m.linkWinner x y = x ∧ m.linkLoser x y = y) ∨
      (m.linkWinner x y = y ∧ m.linkLoser x y = x) := by
  rw [CompState.linkWinner, CompState.linkLoser]
  by_cases h : m.rank.getD y 0 < m.rank.getD x 0
  · left; rw [if_pos h, if_pos h]; exact ⟨rfl, rfl⟩
  · right; rw [if_neg h, if_neg h]; exact ⟨rfl, rfl⟩

theorem CompState.find_link (m : CompState) (x y : ℕ)
    (hxl : x < m.parent.length) (hyl : y < m.parent.length) (i : ℕ) :
    (m.link x y).find i =
      if m.find i = m.linkLoser x y then m.linkWinner x y else m.find i := by
  have hloser : m.linkLoser x y < m.parent.length := by
    rcases m.linkWinner_or x y with ⟨_, h2⟩ | ⟨_, h2⟩
    · rw [h2]; exact hyl
    · rw [h2]; exact hxl
  rw [CompState.find, CompState.link_parent]
  by_cases hi : i < m.parent.length
  · rw [getD_map_of_lt hi i i]
    rfl
  · rw [List.getD_eq_default _ _ (by rw [List.length_map]; omega)]
    have hfi : m.find i = i := List.getD_eq_default _ _ (by omega)
    rw [hfi, if_neg (by omega)]

theorem CompState.linkWinner_lt (m : CompState) {x y : ℕ}
    (hxl : x < m.parent.length) (hyl : y < m.parent.length) :
    m.linkWinner x y < m.parent.length := by
  rcases m.linkWinner_or x y with ⟨h1, _⟩ | ⟨h1, _⟩
  · rw [h1]; exact hxl
  · rw [h1]; exact hyl

theorem CompState.find_linkWinner (m : CompState) {x y : ℕ}
    (hx : m.find x = x) (hy : m.find y = y) :
    m.find (m.linkWinner x y) = m.linkWinner x y := by
  rcases m.linkWinner_or x y with ⟨h1, _⟩ | ⟨h1, _⟩
  · rw [h1]; exact hx
  · rw [h1]; exact hy

theorem CompState.UFInv.link {m : CompState} (h : m.UFInv) {x y : ℕ}
    (hx : m.find x = x) (hy : m.find y = y)
    (hxl : x < m.parent.length) (hyl : y < m.parent.length) :
    (m.link x y).UFInv := by
  obtain ⟨hrank, hlt, hidem⟩ := h
  have hn := m.link_parent_length x y
  refine ⟨by rw [m.link_rank_length x y, hn, hrank], ?_, ?_⟩
  · intro i hi
    rw [hn] at hi
    rw [m.find_link x y hxl hyl i, hn]
    by_cases hfi : m.find i = m.linkLoser x y
    · rw [if_pos hfi]
      exact m.linkWinner_lt hxl hyl
    · rw [if_neg hfi]
      exact hlt i hi
  · intro i hi
    rw [hn] at hi
    rw [m.find_link x y hxl hyl i]
    by_cases hfi : m.find i = m.linkLoser x y
    · rw [if_pos hfi, m.find_link x y hxl hyl, m.find_linkWinner hx hy]
      by_cases hwl : m.linkWinner x y = m.linkLoser x y
      · rw [if_pos hwl]
      · rw [if_neg hwl]
    · rw [if_neg hfi, m.find_link x y hxl hyl, hidem i hi, if_neg hfi]

theorem CompState.Inv.lengths {m : CompState} (h : m.Inv) :
    m.repToColumn.length = m.parent.length := h.2.1

theorem CompState.Inv.root_of_entry {m : CompState} (h : m.Inv) {i : ℕ}
    (hi : m.repToColumn.getD i none ≠ none) :
    m.find i = i ∧ i < m.parent.length := by
  have hilt : i < m.parent.length := by
    by_contra hge
    exact hi (List.getD_eq_default _ _ (by rw [h.2.1]; omega))
  exact ⟨h.2.2 i hilt hi, hilt⟩

theorem CompState.Inv.insertDoubleColumn {m : CompState} (h : m.Inv) {i j : ℕ}
    (hij : i ≠ j) (hi : m.find i = i) (hj : m.find j = j)
    (hil : i < m.parent.length) (hjl : j < m.parent.length) :
    (m.insertDoubleColumn i j).Inv := by
  have huf : (m.link i j).UFInv := h.1.link hi hj hil hjl
  have hn := m.link_parent_length i j
  have hrep := m.link_repToColumn i j
  have hfind := m.find_link i j hil hjl
  rw [CompState.insertDoubleColumn]
  rcases m.linkWinner_or i j with ⟨hw, hl⟩ | ⟨hw, hl⟩
  · -- winner is i, loser is j
    have hnewRep : (m.link i j).find i = i := by
      rw [hfind i, hi, hl, if_neg hij]
    rw [if_pos hnewRep]
    refine ⟨huf, ?_, ?_⟩
    · show (((m.link i j).repToColumn.set i
          ((m.link i j).repToColumn.getD j none)).set j none).length =
        (m.link i j).parent.length
      simp only [List.length_set, hrep, hn, h.2.1]
    · intro k hk hke
      replace hk : k < (m.link i j).parent.length := hk
      replace hke : (((m.link i j).repToColumn.set i
          ((m.link i j).repToColumn.getD j none)).set j none).getD k none ≠ none := hke
      show (m.link i j).find k = k
      rw [hn] at hk
      by_cases hkj : k = j
      · exfalso
        subst hkj
        rw [getD_set_self (by rw [List.length_set, hrep, h.2.1]; exact hjl) none none]
          at hke
        exact hke rfl
      · rw [getD_set_ne (fun hh => hkj hh.symm) none none] at hke
        rw [hfind k, hl]
        by_cases hki : k = i
        · subst hki
          rw [hi, if_neg hij]
        · rw [getD_set_ne (fun hh => hki hh.symm) _ none, hrep] at hke
          have hroot := (h.root_of_entry hke).1
          rw [hroot, if_neg hkj]
  · -- winner is j, loser is i
    have hnewRep : (m.link i j).find i = j := by
      rw [hfind i, hi, hl, if_pos rfl, hw]
    rw [if_neg (by rw [hnewRep]; exact fun hh => hij hh.symm)]
    refine ⟨huf, ?_, ?_⟩
    · show ((m.link i j).repToColumn.set i none).length = (m.link i j).parent.length
      simp only [List.length_set, hrep, hn, h.2.1]
    · intro k hk hke
      replace hk : k < (m.link i j).parent.length := hk
      replace hke : ((m.link i j).repToColumn.set i none).getD k none ≠ none := hke
      show (m.link i j).find k = k
      rw [hn] at hk
      by_cases hki : k = i
      · exfalso
        subst hki
        rw [getD_set_self (by rw [hrep, h.2.1]; exact hil) none none] at hke
        exact hke rfl
      · rw [getD_set_ne (fun hh => hki hh.symm) none none, hrep] at hke
        have hroot := (h.root_of_entry hke).1
        rw [hfind k, hl, hroot, if_neg hki]

theorem findDup_spec {m : CompState} {i : ℕ} {col : List ℕ} {j : ℕ}
    (h : m.findDup i col = some j) :
    j < m.repToColumn.length ∧ j ≠ i ∧ m.repToColumn.getD j none = some col := by
  rw [CompState.findDup] at h
  have hmem := List.mem_of_find?_eq_some h
  have hpred := List.find?_some h
  simp only [Bool.and_eq_true, decide_eq_true_eq] at hpred
  exact ⟨List.mem_range.1 hmem, hpred.1, hpred.2⟩

theorem CompState.Inv.setEntry {m : CompState} (h : m.Inv) {i : ℕ}
    (hroot : m.find i = i) (v : Option (List ℕ)) :
    (CompState.mk m.parent m.rank (m.repToColumn.set i v)).Inv := by
  refine ⟨h.1, ?_, ?_⟩
  · show (m.repToColumn.set i v).length = m.parent.length
    rw [List.length_set, h.2.1]
  · intro k hk hke
    replace hk : k < m.parent.length := hk
    replace hke : (m.repToColumn.set i v).getD k none ≠ none := hke
    show m.find k = k
    by_cases hki : k = i
    · subst hki
      exact hroot
    · rw [getD_set_ne (fun hh => hki hh.symm) _ none] at hke
      exact h.2.2 k hk hke

theorem CompState.Inv.insertColumn {m : CompState} (h : m.Inv) {i : ℕ}
    (hroot : m.find i = i) : (m.insertColumn i).Inv := by
  rw [CompState.insertColumn]
  cases hc : m.repToColumn.getD i none with
  | none => exact h
  | some col =>
    show (if col = [] then
        CompState.mk m.parent m.rank (m.repToColumn.set i none)
      else
        match m.findDup i col with
        | none => m
        | some j => m.insertDoubleColumn i j).Inv
    by_cases hcol : col = []
    · rw [if_pos hcol]
      exact h.setEntry hroot none
    · rw [if_neg hcol]
      cases hdup : m.findDup i col with
      | none => exact h
      | some j =>
        obtain ⟨hjlen, hji, hjcol⟩ := findDup_spec hdup
        have hjroot := h.root_of_entry
          (by rw [hjcol]; exact fun hh => Option.noConfusion hh)
        have hient := h.root_of_entry
          (by rw [hc]; exact fun hh => Option.noConfusion hh)
        exact h.insertDoubleColumn (fun hh => hji hh.symm) hroot hjroot.1
          hient.2 hjroot.2

theorem CompState.find_link_self (m : CompState) {x : ℕ}
    (hxl : x < m.parent.length) (k : ℕ) : (m.link x x).find k = m.find k := by
  rw [m.find_link x x hxl hxl]
  rcases m.linkWinner_or x x with ⟨hw, hl⟩ | ⟨hw, hl⟩ <;>
    rw [hl, hw] <;>
    by_cases hk : m.find k = x
  · rw [if_pos hk, hk]
  · rw [if_neg hk]
  · rw [if_pos hk, hk]
  · rw [if_neg hk]

theorem CompState.Inv.link_self {m : CompState} (h : m.Inv) {x : ℕ}
    (hx : m.find x = x) (hxl : x < m.parent.length) : (m.link x x).Inv := by
  refine ⟨h.1.link hx hx hxl hxl, ?_, ?_⟩
  · show (m.link x x).repToColumn.length = (m.link x x).parent.length
    rw [m.link_repToColumn, m.link_parent_length, h.2.1]
  · intro k hk hke
    replace hk : k < (m.link x x).parent.length := hk
    replace hke : (m.link x x).repToColumn.getD k none ≠ none := hke
    rw [m.link_repToColumn] at hke
    rw [m.link_parent_length] at hk
    show (m.link x x).find k = k
    rw [m.find_link_self hxl k]
    exact h.2.2 k hk hke

theorem CompState.Inv.pushColumn {m : CompState} (h : m.Inv) (bd : List ℕ) :
    (CompState.mk (m.parent ++ [m.repToColumn.length])
      (m.rank ++ [0]) (m.repToColumn ++ [some bd])).Inv := by
  obtain ⟨⟨hrkl, hflt, hidem⟩, hrcl, hent⟩ := h
  have hfind_lt : ∀ i, i < m.parent.length →
      (CompState.mk (m.parent ++ [m.repToColumn.length]) (m.rank ++ [0])
        (m.repToColumn ++ [some bd])).find i = m.find i := by
    intro i hi
    show (m.parent ++ [m.repToColumn.length]).getD i i = m.find i
    rw [List.getD_append _ _ _ i hi]
    rfl
  have hfind_new : (CompState.mk (m.parent ++ [m.repToColumn.length])
      (m.rank ++ [0]) (m.repToColumn ++ [some bd])).find m.parent.length =
      m.parent.length := by
    show (m.parent ++ [m.repToColumn.length]).getD m.parent.length m.parent.length =
      m.parent.length
    rw [getD_append_last, hrcl]
  refine ⟨⟨?_, ?_, ?_⟩, ?_, ?_⟩
  · show (m.rank ++ [0]).length = (m.parent ++ [m.repToColumn.length]).length
    simp [hrkl]
  · intro i hi
    replace hi : i < (m.parent ++ [m.repToColumn.length]).length := hi
    rw [List.length_append, List.length_singleton] at hi
    show _ < (m.parent ++ [m.repToColumn.length]).length
    rw [List.length_append, List.length_singleton]
    by_cases hilt : i < m.parent.length
    · rw [hfind_lt i hilt]
      have := hflt i hilt
      omega
    · have hieq : i = m.parent.length := by omega
      subst hieq
      rw [hfind_new]
      omega
  · intro i hi
    replace hi : i < (m.parent ++ [m.repToColumn.length]).length := hi
    rw [List.length_append, List.length_singleton] at hi
    by_cases hilt : i < m.parent.length
    · rw [hfind_lt i hilt, hfind_lt (m.find i) (hflt i hilt)]
      exact hidem i hilt
    · have hieq : i = m.parent.length := by omega
      subst hieq
      rw [hfind_new, hfind_new]
  · show (m.repToColumn ++ [some bd]).length = (m.parent ++ [m.repToColumn.length]).length
    simp [hrcl]
  · intro k hk hke
    replace hk : k < (m.parent ++ [m.repToColumn.length]).length := hk
    replace hke : (m.repToColumn ++ [some bd]).getD k none ≠ none := hke
    rw [List.length_append, List.length_singleton] at hk
    by_cases hklt : k < m.parent.length
    · rw [hfind_lt k hklt]
      rw [List.getD_append _ _ _ k (by rw [hrcl]; exact hklt)] at hke
      exact hent k hklt hke
    · have hkeq : k = m.parent.length := by omega
      subst hkeq
      exact hfind_new

theorem CompState.Inv.insertBoundary {m : CompState} (h : m.Inv) (bd : List ℕ) :
    (m.insertBoundary bd).Inv := by
  show (((CompState.mk (m.parent ++ [m.repToColumn.length]) (m.rank ++ [0])
      (m.repToColumn ++ [some bd])).link m.repToColumn.length
      m.repToColumn.length).insertColumn m.repToColumn.length).Inv
  have h1 := h.pushColumn bd
  have hxl : m.repToColumn.length <
      (CompState.mk (m.parent ++ [m.repToColumn.length]) (m.rank ++ [0])
        (m.repToColumn ++ [some bd])).parent.length := by
    show m.repToColumn.length < (m.parent ++ [m.repToColumn.length]).length
    rw [List.length_append, List.length_singleton, h.2.1]
    omega
  have hroot1 : (CompState.mk (m.parent ++ [m.repToColumn.length]) (m.rank ++ [0])
      (m.repToColumn ++ [some bd])).find m.repToColumn.length =
      m.repToColumn.length := by
    show (m.parent ++ [m.repToColumn.length]).getD m.repToColumn.length
      m.repToColumn.length = m.repToColumn.length
    rw [h.2.1, getD_append_last]
  have h2 := h1.link_self hroot1 hxl
  refine h2.insertColumn ?_
  rw [CompState.find_link_self _ hxl]
  exact hroot1

theorem CompState.Inv.addTo {m : CompState} (h : m.Inv) {src tgt : ℕ}
    {m' : CompState} (hadd : m.addTo src tgt = some m') : m'.Inv := by
  rw [CompState.addTo] at hadd
  cases hentry : m.repToColumn.getD (m.find tgt) none with
  | none =>
    rw [hentry] at hadd
    exact absurd hadd (by simp)
  | some tcol =>
    rw [hentry] at hadd
    have hroot := h.root_of_entry (by rw [hentry]; exact fun hh => Option.noConfusion hh)
    have hm1 : (CompState.mk m.parent m.rank (m.repToColumn.set (m.find tgt)
        (some (mergeZ2 tcol (m.contentOf src))))).Inv := h.setEntry hroot.1 _
    have hfin : (CompState.mk m.parent m.rank (m.repToColumn.set (m.find tgt)
        (some (mergeZ2 tcol (m.contentOf src))))).find (m.find tgt) = m.find tgt :=
      hroot.1
    have := hm1.insertColumn hfin
    have heq : m' = (CompState.mk m.parent m.rank (m.repToColumn.set (m.find tgt)
        (some (mergeZ2 tcol (m.contentOf src))))).insertColumn (m.find tgt) := by
      cases hadd
      rfl
    rw [heq]
    exact this

theorem CompState.Inv.applyOp {m : CompState} (h : m.Inv) (op : MatrixOp) :
    (m.applyOp op).Inv := by
  cases op with
  | insert bd => exact h.insertBoundary bd
  | add src tgt =>
    show ((m.addTo src tgt).getD m).Inv
    cases hadd : m.addTo src tgt with
    | none => exact h
    | some m2 => exact h.addTo hadd

theorem CompState.Inv.applyOps : ∀ (ops : List MatrixOp) (m : CompState),
    m.Inv → (m.applyOps ops).Inv := by
  intro ops
  induction ops with
  | nil => intro m h; exact h
  | cons op ops ih =>
    intro m h
    exact ih (m.applyOp op) (h.applyOp op)

theorem CompState.initial_inv : CompState.initial.Inv := by decide

/-- The effect of `add_to` on the whole class of the target: every index in
the target's union-find class resolves afterwards to the sum column (as the
stored physical column when the sum is non-empty, possibly the equal column of
the class it was merged into, or no column at all when the sum is empty). -/
theorem addTo_class_entry {m : CompState} (h : m.Inv) {src tgt : ℕ}
    {m' : CompState} (hadd : m.addTo src tgt = some m') (k : ℕ)
    (hk : m.find k = m.find tgt) :
    m'.getColumnEntry k =
      if mergeZ2 (m.contentOf tgt) (m.contentOf src) = [] then none
      else some (mergeZ2 (m.contentOf tgt) (m.contentOf src)) := by
  rw [CompState.addTo] at hadd
  cases hentry : m.repToColumn.getD (m.find tgt) none with
  | none =>
    rw [hentry] at hadd
    exact absurd hadd (by simp)
  | some tcol =>
    rw [hentry] at hadd
    have hct : m.contentOf tgt = tcol := by
      rw [CompState.contentOf, CompState.getColumnEntry, hentry]
    rw [hct]
    have hroot := h.root_of_entry (by rw [hentry]; exact fun hh => Option.noConfusion hh)
    have hm' : m' = (CompState.mk m.parent m.rank (m.repToColumn.set (m.find tgt)
        (some (mergeZ2 tcol (m.contentOf src))))).insertColumn (m.find tgt) := by
      cases hadd
      rfl
    subst hm'
    set S := mergeZ2 tcol (m.contentOf src) with hS
    set M1 := CompState.mk m.parent m.rank
      (m.repToColumn.set (m.find tgt) (some S)) with hM1
    have hm1len : M1.repToColumn.length = m.parent.length := by
      show (m.repToColumn.set (m.find tgt) (some S)).length = m.parent.length
      rw [List.length_set, h.2.1]
    have hm1getD : M1.repToColumn.getD (m.find tgt) none = some S := by
      show (m.repToColumn.set (m.find tgt) (some S)).getD (m.find tgt) none = some S
      exact getD_set_self (by rw [h.2.1]; exact hroot.2) _ none
    rw [CompState.insertColumn, hm1getD]
    show (if S = [] then
        CompState.mk M1.parent M1.rank (M1.repToColumn.set (m.find tgt) none)
      else
        match M1.findDup (m.find tgt) S with
        | none => M1
        | some j => M1.insertDoubleColumn (m.find tgt) j).getColumnEntry k =
      if S = [] then none else some S
    by_cases hsum : S = []
    · rw [if_pos hsum, if_pos hsum]
      show (M1.repToColumn.set (m.find tgt) none).getD
        ((CompState.mk M1.parent M1.rank
          (M1.repToColumn.set (m.find tgt) none)).find k) none = none
      have hfk1 : (CompState.mk M1.parent M1.rank
          (M1.repToColumn.set (m.find tgt) none)).find k = m.find k := rfl
      rw [hfk1, hk]
      exact getD_set_self (by rw [hm1len]; exact hroot.2) _ none
    · rw [if_neg hsum, if_neg hsum]
      cases hdup : M1.findDup (m.find tgt) S with
      | none =>
        show M1.repToColumn.getD (M1.find k) none = some S
        have hfk1 : M1.find k = m.find k := rfl
        rw [hfk1, hk]
        exact hm1getD
      | some j =>
        show (M1.insertDoubleColumn (m.find tgt) j).getColumnEntry k = some S
        obtain ⟨hjlen, hjne, hjcol⟩ := findDup_spec hdup
        have hjl : j < M1.parent.length := by
          show j < m.parent.length
          rw [← hm1len]
          exact hjlen
        have htgtl : m.find tgt < M1.parent.length := hroot.2
        have hfindM2 := M1.find_link (m.find tgt) j htgtl hjl
        have hfk : M1.find k = m.find tgt := hk
        have hftgt : M1.find (m.find tgt) = m.find tgt := hroot.1
        have hlinkrep := M1.link_repToColumn (m.find tgt) j
        show (if (M1.link (m.find tgt) j).find (m.find tgt) = m.find tgt then
            CompState.mk (M1.link (m.find tgt) j).parent
              (M1.link (m.find tgt) j).rank
              (((M1.link (m.find tgt) j).repToColumn.set (m.find tgt)
                ((M1.link (m.find tgt) j).repToColumn.getD j none)).set j none)
          else
            CompState.mk (M1.link (m.find tgt) j).parent
              (M1.link (m.find tgt) j).rank
              ((M1.link (m.find tgt) j).repToColumn.set (m.find tgt)
                none)).getColumnEntry k = some S
        rcases M1.linkWinner_or (m.find tgt) j with ⟨hw, hl⟩ | ⟨hw, hl⟩
        · -- the target representative wins the union
          have hnewRep : (M1.link (m.find tgt) j).find (m.find tgt) = m.find tgt := by
            rw [hfindM2, hftgt, hl]
            exact if_neg hjne.symm
          rw [if_pos hnewRep]
          show (((M1.link (m.find tgt) j).repToColumn.set (m.find tgt)
              ((M1.link (m.find tgt) j).repToColumn.getD j none)).set j none).getD
            ((M1.link (m.find tgt) j).find k) none = some S
          have hfk2 : (M1.link (m.find tgt) j).find k = m.find tgt := by
            rw [hfindM2, hfk, hl]
            exact if_neg hjne.symm
          rw [hfk2, getD_set_ne hjne _ none,
            getD_set_self (by rw [hlinkrep, hm1len]; exact hroot.2) _ none,
            hlinkrep]
          exact hjcol
        · -- the duplicate column representative wins the union
          have hnewRep : (M1.link (m.find tgt) j).find (m.find tgt) = j := by
            rw [hfindM2, hftgt, hl, if_pos rfl, hw]
          rw [if_neg (by rw [hnewRep]; exact hjne)]
          show ((M1.link (m.find tgt) j).repToColumn.set (m.find tgt) none).getD
            ((M1.link (m.find tgt) j).find k) none = some S
          have hfk2 : (M1.link (m.find tgt) j).find k = j := by
            rw [hfindM2, hfk, hl, if_pos rfl, hw]
          rw [hfk2, getD_set_ne (fun hh => hjne hh.symm) _ none, hlinkrep]
          exact hjcol

theorem addTo_class_content {m : CompState} (h : m.Inv) {src tgt : ℕ}
    {m' : CompState} (hadd : m.addTo src tgt = some m') (k : ℕ)
    (hk : m.find k = m.find tgt) :
    m'.contentOf k = mergeZ2 (m.contentOf tgt) (m.contentOf src) := by
  rw [CompState.contentOf, addTo_class_entry h hadd k hk]
  by_cases hsum : mergeZ2 (m.contentOf tgt) (m.contentOf src) = []
  · rw [if_pos hsum]
    exact hsum.symm
  · rw [if_neg hsum]

/-- The target of a cancelled merge: adding a sorted column to itself over
`Z/2` removes every cell. -/
theorem mergeZ2_self : ∀ c : List ℕ, mergeZ2 c c = [] := by
  intro c
  induction c with
  | nil => rw [mergeZ2]
  | cons t c ih =>
    rw [mergeZ2, if_neg (lt_irrefl t), if_neg (lt_irrefl t)]
    exact ih

/-- Pointwise correctness of the `Z/2` merge on ordered columns: a row is in
the sum exactly when it is in exactly one of the inputs. -/
theorem mem_mergeZ2_iff :
    ∀ (a b : List ℕ), a.Pairwise (· < ·) → b.Pairwise (· < ·) →
      ∀ r, (r ∈ mergeZ2 a b ↔ Xor' (r ∈ a) (r ∈ b)) := by
  intro a
  induction a with
  | nil =>
    intro b _ _ r
    rw [mergeZ2]
    simp [Xor']
  | cons t target iht =>
    intro b
    induction b with
    | nil =>
      intro _ _ r
      rw [mergeZ2]
      simp [Xor']
    | cons s source ihs =>
      intro ht hs r
      have ht' := (List.pairwise_cons.1 ht).2
      have hs' := (List.pairwise_cons.1 hs).2
      have htb := (List.pairwise_cons.1 ht).1
      have hsb := (List.pairwise_cons.1 hs).1
      by_cases h1 : t < s
      · rw [mergeZ2, if_pos h1]
        by_cases hr : r = t
        · subst hr
          have h2 : r ∉ s :: source := by
            intro hmem
            rcases List.mem_cons.1 hmem with hh | hh
            · omega
            · have := hsb _ hh
              omega
          have h3 : r ∉ target := fun hh => absurd (htb _ hh) (lt_irrefl r)
          simp [Xor', h2, h3, iht (s :: source) ht' hs r]
        · rw [List.mem_cons, iht (s :: source) ht' hs r]
          simp only [Xor', List.mem_cons]
          constructor
          · rintro (hh | hh)
            · exact absurd hh hr
            · rcases hh with ⟨hta, hnb⟩ | ⟨hb, hnt⟩
              · exact Or.inl ⟨Or.inr hta, hnb⟩
              · exact Or.inr ⟨hb, fun hh => hnt (hh.resolve_left hr)⟩
          · rintro (⟨hta, hnb⟩ | ⟨hb, hnt⟩)
            · exact Or.inr (Or.inl ⟨hta.resolve_left hr, hnb⟩)
            · exact Or.inr (Or.inr ⟨hb, fun hh => hnt (Or.inr hh)⟩)
      · by_cases h2 : s < t
        · rw [mergeZ2, if_neg h1, if_pos h2]
          by_cases hr : r = s
          · subst hr
            have h3 : r ∉ t :: target := by
              intro hmem
              rcases List.mem_cons.1 hmem with hh | hh
              · omega
              · have := htb _ hh
                omega
            have h4 : r ∉ source := fun hh => absurd (hsb _ hh) (lt_irrefl r)
            simp [Xor', h3, h4, ihs ht hs' r]
          · rw [List.mem_cons, ihs ht hs' r]
            simp only [Xor', List.mem_cons]
            constructor
            · rintro (hh | hh)
              · exact absurd hh hr
              · rcases hh with ⟨hta, hnb⟩ | ⟨hb, hnt⟩
                · exact Or.inl ⟨hta, fun hh => hnb (hh.resolve_left hr)⟩
                · exact Or.inr ⟨Or.inr hb, hnt⟩
            · rintro (⟨hta, hnb⟩ | ⟨hb, hnt⟩)
              · exact Or.inr (Or.inl ⟨hta, fun hh => hnb (Or.inr hh)⟩)
              · exact Or.inr (Or.inr ⟨hb.resolve_left hr, hnt⟩)
        · have heq : t = s := by omega
          subst heq
          rw [mergeZ2, if_neg h1, if_neg h2]
          by_cases hr : r = t
          · subst hr
            have h3 : r ∉ target := fun hh => absurd (htb _ hh) (lt_irrefl r)
            have h4 : r ∉ source := fun hh => absurd (hsb _ hh) (lt_irrefl r)
            rw [iht source ht' hs' r]
            simp [Xor', h3, h4]
          · rw [iht source ht' hs' r]
            simp only [Xor', List.mem_cons]
            constructor
            · rintro (⟨hta, hnb⟩ | ⟨hb, hnt⟩)
              · exact Or.inl ⟨Or.inr hta, fun hh => hnb (hh.resolve_left hr)⟩
              · exact Or.inr ⟨Or.inr hb, fun hh => hnt (hh.resolve_left hr)⟩
            · rintro (⟨hta, hnb⟩ | ⟨hb, hnt⟩)
              · exact Or.inl ⟨hta.resolve_left hr, fun hh => hnb (Or.inr hh)⟩
              · exact Or.inr ⟨hb.resolve_left hr, fun hh => hnt (Or.inr hh)⟩

/-- C1 (spec P5, compression equivalence): along any operation sequence the
matrix invariant holds; `add_to` preserves it; any two indices of one
union-find class resolve to the same physical column slot and therefore to
identical content; and an `add_to` onto one member of a class leaves every
member of that class resolving to the sum column. -/
theorem C1_compression_class_invariant (m : CompState) (h : m.Inv)
    (src tgt : ℕ) (m' : CompState) (hadd : m.addTo src tgt = some m') :
    (∀ ops : List MatrixOp, (CompState.initial.applyOps ops).Inv) ∧
    m'.Inv ∧
    (∀ i j, m'.find i = m'.find j →
      m'.getColumnEntry i = m'.getColumnEntry j ∧ m'.contentOf i = m'.contentOf j) ∧
    (∀ k, m.find k = m.find tgt →
      m'.contentOf k = mergeZ2 (m.contentOf tgt) (m.contentOf src)) := by
  refine ⟨fun ops => CompState.Inv.applyOps ops _ CompState.initial_inv,
    h.addTo hadd, ?_, ?_⟩
  · intro i j hij
    constructor
    · rw [CompState.getColumnEntry, CompState.getColumnEntry, hij]
    · rw [CompState.contentOf, CompState.contentOf, CompState.getColumnEntry,
        CompState.getColumnEntry, hij]
  · intro k hkk
    exact addTo_class_content h hadd k hkk

/-- Witness for C1: two distinct columns are inserted; `add_to 0 1` leaves
index `1` holding the sum of its class representative and column `0`. -/
theorem C1_compression_class_invariant_witness :
    ((CompState.initial.insertBoundary [0, 1]).insertBoundary [2]).Inv ∧
    ((CompState.initial.insertBoundary [0, 1]).insertBoundary [2]).addTo 0 1 =
      some (CompState.mk [0, 1] [1, 1] [some [0, 1], some [0, 1, 2]]) ∧
    (CompState.mk [0, 1] [1, 1] [some [0, 1], some [0, 1, 2]]).contentOf 1 =
      mergeZ2
        (((CompState.initial.insertBoundary [0, 1]).insertBoundary [2]).contentOf 1)
        (((CompState.initial.insertBoundary [0, 1]).insertBoundary [2]).contentOf 0) := by
  have h1 : ((CompState.initial.insertBoundary [0, 1]).insertBoundary [2]).Inv := by
    decide
  have hm0 : (CompState.initial.insertBoundary [0, 1]).insertBoundary [2] =
      CompState.mk [0, 1] [1, 1] [some [0, 1], some [2]] := by decide
  have hcont : (CompState.mk [0, 1] [1, 1]
      [some [0, 1], some [2]]).contentOf 0 = [0, 1] := by decide
  have hmerge : mergeZ2 [2] [0, 1] = [0, 1, 2] := by simp +decide [mergeZ2]
  have h2 : ((CompState.initial.insertBoundary [0, 1]).insertBoundary [2]).addTo 0 1 =
      some (CompState.mk [0, 1] [1, 1] [some [0, 1], some [0, 1, 2]]) := by
    rw [hm0]
    show some ((CompState.mk [0, 1] [1, 1] ([some [0, 1], some [2]].set 1
        (some (mergeZ2 [2] ((CompState.mk [0, 1] [1, 1]
          [some [0, 1], some [2]]).contentOf 0))))).insertColumn 1) =
      some (CompState.mk [0, 1] [1, 1] [some [0, 1], some [0, 1, 2]])
    rw [hcont, hmerge]
    decide
  exact ⟨h1, h2,
    (C1_compression_class_invariant _ h1 0 1 _ h2).2.2.2 1 rfl⟩

/-- C4 (aliasing safety over `Z/2`): the `_add` merge is pointwise correct on
ordered columns (a row survives exactly when it is in exactly one input);
merging a column with itself — the aliased case arising under compression —
cancels every cell; and an `add_to` whose source and target resolve to the
same physical column leaves the whole class holding the zero column. -/
theorem C4_aliasing_safety (a b c : List ℕ)
    (ha : a.Pairwise (· < ·)) (hb : b.Pairwise (· < ·))
    (m : CompState) (h : m.Inv) (src tgt : ℕ)
    (hclass : m.find src = m.find tgt)
    (m' : CompState) (hadd : m.addTo src tgt = some m') :
    (∀ r, r ∈ mergeZ2 a b ↔ Xor' (r ∈ a) (r ∈ b)) ∧
    mergeZ2 c c = [] ∧
    (∀ k, m.find k = m.find tgt →
      m'.getColumnEntry k = none ∧ m'.contentOf k = [] ∧
      m'.isZeroColumn k = true) := by
  refine ⟨mem_mergeZ2_iff a b ha hb, mergeZ2_self c, ?_⟩
  have hcc : m.contentOf src = m.contentOf tgt := by
    rw [CompState.contentOf, CompState.contentOf, CompState.getColumnEntry,
      CompState.getColumnEntry, hclass]
  intro k hkk
  have hz : mergeZ2 (m.contentOf tgt) (m.contentOf src) = [] := by
    rw [hcc]
    exact mergeZ2_self _
  have hent := addTo_class_entry h hadd k hkk
  rw [if_pos hz] at hent
  refine ⟨hent, ?_, ?_⟩
  · rw [CompState.contentOf, hent]
  · rw [CompState.isZeroColumn, hent]

/-- Witness for C4: two equal columns are compressed into one class; adding
the class to itself empties it. -/
theorem C4_aliasing_safety_witness :
    ((CompState.initial.insertBoundary [0, 1]).insertBoundary [0, 1]).Inv ∧
    ((CompState.initial.insertBoundary [0, 1]).insertBoundary [0, 1]).find 0 =
      ((CompState.initial.insertBoundary [0, 1]).insertBoundary [0, 1]).find 1 ∧
    ((CompState.initial.insertBoundary [0, 1]).insertBoundary [0, 1]).addTo 0 1 =
      some (CompState.mk [0, 0] [2, 1] [none, none]) ∧
    (CompState.mk [0, 0] [2, 1] [none, none]).getColumnEntry 1 = none ∧
    (CompState.mk [0, 0] [2, 1] [none, none]).isZeroColumn 1 = true := by
  have h1 : ((CompState.initial.insertBoundary [0, 1]).insertBoundary [0, 1]).Inv := by
    decide
  have hm0 : (CompState.initial.insertBoundary [0, 1]).insertBoundary [0, 1] =
      CompState.mk [0, 0] [2, 1] [some [0, 1], none] := by decide
  have hcont : (CompState.mk [0, 0] [2, 1]
      [some [0, 1], none]).contentOf 0 = [0, 1] := by decide
  have h2 : ((CompState.initial.insertBoundary [0, 1]).insertBoundary [0, 1]).addTo 0 1 =
      some (CompState.mk [0, 0] [2, 1] [none, none]) := by
    rw [hm0]
    show some ((CompState.mk [0, 0] [2, 1] ([some [0, 1], none].set 0
        (some (mergeZ2 [0, 1] ((CompState.mk [0, 0] [2, 1]
          [some [0, 1], none]).contentOf 0))))).insertColumn 0) =
      some (CompState.mk [0, 0] [2, 1] [none, none])
    rw [hcont, mergeZ2_self]
    decide
  have h3 := C4_aliasing_safety [] [] [] List.Pairwise.nil List.Pairwise.nil
    _ h1 0 1 (by decide) _ h2
  exact ⟨h1, by decide, h2, (h3.2.2 1 (by decide)).1, (h3.2.2 1 (by decide)).2.2⟩

theorem CompState.num_insertDoubleColumn (m : CompState) (i j : ℕ) :
    (m.insertDoubleColumn i j).getNumberOfColumns = m.getNumberOfColumns := by
  rw [CompState.insertDoubleColumn]
  by_cases hn : (m.link i j).find i = i
  · rw [if_pos hn]
    show (((m.link i j).repToColumn.set i
      ((m.link i j).repToColumn.getD j none)).set j none).length = m.repToColumn.length
    rw [List.length_set, List.length_set, m.link_repToColumn]
  · rw [if_neg hn]
    show ((m.link i j).repToColumn.set i none).length = m.repToColumn.length
    rw [List.length_set, m.link_repToColumn]

theorem CompState.num_insertColumn (m : CompState) (i : ℕ) :
    (m.insertColumn i).getNumberOfColumns = m.getNumberOfColumns := by
  rw [CompState.insertColumn]
  cases hc : m.repToColumn.getD i none with
  | none => rfl
  | some col =>
    show (if col = [] then
        CompState.mk m.parent m.rank (m.repToColumn.set i none)
      else
        match m.findDup i col with
        | none => m
        | some j => m.insertDoubleColumn i j).getNumberOfColumns =
      m.getNumberOfColumns
    by_cases hcol : col = []
    · rw [if_pos hcol]
      show (m.repToColumn.set i none).length = m.repToColumn.length
      rw [List.length_set]
    · rw [if_neg hcol]
      cases hdup : m.findDup i col with
      | none => rfl
      | some j => exact m.num_insertDoubleColumn i j

theorem CompState.num_insertBoundary (m : CompState) (bd : List ℕ) :
    (m.insertBoundary bd).getNumberOfColumns = m.getNumberOfColumns + 1 := by
  show (((CompState.mk (m.parent ++ [m.repToColumn.length]) (m.rank ++ [0])
      (m.repToColumn ++ [some bd])).link m.repToColumn.length
      m.repToColumn.length).insertColumn
      m.repToColumn.length).getNumberOfColumns = m.repToColumn.length + 1
  rw [CompState.num_insertColumn]
  show ((CompState.mk (m.parent ++ [m.repToColumn.length]) (m.rank ++ [0])
      (m.repToColumn ++ [some bd])).link m.repToColumn.length
      m.repToColumn.length).repToColumn.length = m.repToColumn.length + 1
  rw [CompState.link_repToColumn]
  show (m.repToColumn ++ [some bd]).length = m.repToColumn.length + 1
  rw [List.length_append, List.length_singleton]

theorem CompState.num_addTo {m : CompState} {src tgt : ℕ} {m' : CompState}
    (hadd : m.addTo src tgt = some m') :
    m'.getNumberOfColumns = m.getNumberOfColumns := by
  rw [CompState.addTo] at hadd
  cases hentry : m.repToColumn.getD (m.find tgt) none with
  | none =>
    rw [hentry] at hadd
    exact absurd hadd (by simp)
  | some tcol =>
    rw [hentry] at hadd
    have heq : m' = (CompState.mk m.parent m.rank (m.repToColumn.set (m.find tgt)
        (some (mergeZ2 tcol (m.contentOf src))))).insertColumn (m.find tgt) := by
      cases hadd
      rfl
    rw [heq, CompState.num_insertColumn]
    show (m.repToColumn.set (m.find tgt) _).length = m.repToColumn.length
    rw [List.length_set]

/-- The number of `insert_column`/`insert_boundary` calls in a sequence of
matrix operations. -/
def countInserts (ops : List MatrixOp) : ℕ :=
  ops.countP fun op => match op with
    | MatrixOp.insert _ => true
    | MatrixOp.add _ _ => false

theorem applyOps_num : ∀ (ops : List MatrixOp) (m : CompState),
    (m.applyOps ops).getNumberOfColumns = m.getNumberOfColumns + countInserts ops := by
  intro ops
  induction ops with
  | nil =>
    intro m
    show m.getNumberOfColumns = m.getNumberOfColumns + countInserts []
    rw [countInserts, List.countP_nil, Nat.add_zero]
  | cons op ops ih =>
    intro m
    show ((m.applyOp op).applyOps ops).getNumberOfColumns = _
    rw [ih (m.applyOp op)]
    cases op with
    | insert bd =>
      have hc2 : countInserts (MatrixOp.insert bd :: ops) = countInserts ops + 1 := by
        simp [countInserts, List.countP_cons]
      rw [hc2]
      show (m.insertBoundary bd).getNumberOfColumns + countInserts ops = _
      rw [m.num_insertBoundary bd]
      omega
    | add src tgt =>
      have hc2 : countInserts (MatrixOp.add src tgt :: ops) = countInserts ops := by
        simp [countInserts, List.countP_cons]
      rw [hc2]
      show ((m.addTo src tgt).getD m).getNumberOfColumns + countInserts ops = _
      have hnum : ((m.addTo src tgt).getD m).getNumberOfColumns =
          m.getNumberOfColumns := by
        cases hadd : m.addTo src tgt with
        | none => rfl
        | some m2 => exact CompState.num_addTo hadd
      rw [hnum]

/-- C8: after any operation sequence, `get_number_of_columns` equals the
number of columns inserted so far — columns merged into an existing
compression class and columns inserted from an empty boundary included —
and `add_to` never changes it. -/
theorem C8_number_of_columns :
    (∀ (ops : List MatrixOp) (m : CompState),
      (m.applyOps ops).getNumberOfColumns =
        m.getNumberOfColumns + countInserts ops) ∧
    ∀ ops : List MatrixOp,
      (CompState.initial.applyOps ops).getNumberOfColumns = countInserts ops := by
  refine ⟨applyOps_num, fun ops => ?_⟩
  rw [applyOps_num ops CompState.initial]
  show 0 + countInserts ops = countInserts ops
  omega

/-- C9: inserting an empty boundary stores no physical column for the new
index: its class slot is a null pointer, so `get_column` resolves to the
shared static empty column, and `is_zero_column` and `is_zero_cell` (at any
row) answer `true` rather than failing. -/
theorem C9_empty_boundary (m : CompState) (h : m.Inv) :
    (m.insertBoundary []).getColumnEntry m.getNumberOfColumns = none ∧
    (m.insertBoundary []).contentOf m.getNumberOfColumns = [] ∧
    (m.insertBoundary []).isZeroColumn m.getNumberOfColumns = true ∧
    ∀ r, (m.insertBoundary []).isZeroCell m.getNumberOfColumns r = true := by
  have hNlt : m.repToColumn.length <
      (m.parent ++ [m.repToColumn.length]).length := by
    rw [List.length_append, List.length_singleton, h.2.1]
    omega
  have hfind1 : (CompState.mk (m.parent ++ [m.repToColumn.length]) (m.rank ++ [0])
      (m.repToColumn ++ [some ([] : List ℕ)])).find m.repToColumn.length =
      m.repToColumn.length := by
    show (m.parent ++ [m.repToColumn.length]).getD m.repToColumn.length
      m.repToColumn.length = m.repToColumn.length
    rw [h.2.1, getD_append_last]
  have hent2 : ((CompState.mk (m.parent ++ [m.repToColumn.length]) (m.rank ++ [0])
      (m.repToColumn ++ [some ([] : List ℕ)])).link m.repToColumn.length
      m.repToColumn.length).repToColumn.getD m.repToColumn.length none =
      some [] := by
    rw [CompState.link_repToColumn]
    show (m.repToColumn ++ [some []]).getD m.repToColumn.length none = some []
    rw [getD_append_last]
  have hfind2 : ((CompState.mk (m.parent ++ [m.repToColumn.length]) (m.rank ++ [0])
      (m.repToColumn ++ [some ([] : List ℕ)])).link m.repToColumn.length
      m.repToColumn.length).find m.repToColumn.length = m.repToColumn.length := by
    rw [CompState.find_link_self _ hNlt]
    exact hfind1
  have hkey : (m.insertBoundary []).getColumnEntry m.repToColumn.length = none := by
    show (((CompState.mk (m.parent ++ [m.repToColumn.length]) (m.rank ++ [0])
        (m.repToColumn ++ [some ([] : List ℕ)])).link m.repToColumn.length
        m.repToColumn.length).insertColumn
        m.repToColumn.length).getColumnEntry m.repToColumn.length = none
    rw [CompState.insertColumn, hent2]
    show (((CompState.mk (m.parent ++ [m.repToColumn.length]) (m.rank ++ [0])
        (m.repToColumn ++ [some ([] : List ℕ)])).link m.repToColumn.length
        m.repToColumn.length).repToColumn.set m.repToColumn.length none).getD
      (((CompState.mk (m.parent ++ [m.repToColumn.length]) (m.rank ++ [0])
        (m.repToColumn ++ [some ([] : List ℕ)])).link m.repToColumn.length
        m.repToColumn.length).find m.repToColumn.length) none = none
    rw [hfind2]
    refine getD_set_self ?_ _ none
    rw [CompState.link_repToColumn]
    show m.repToColumn.length < (m.repToColumn ++ [some []]).length
    rw [List.length_append, List.length_singleton]
    omega
  have hkey2 : (m.insertBoundary []).getColumnEntry m.getNumberOfColumns =
      none := hkey
  refine ⟨hkey2, ?_, ?_, ?_⟩
  · rw [CompState.contentOf, hkey2]
  · rw [CompState.isZeroColumn, hkey2]
  · intro r
    rw [CompState.isZeroCell, hkey2]

/-- Witness for C9 on a one-column matrix. -/
theorem C9_empty_boundary_witness :
    (CompState.initial.insertBoundary [0]).Inv ∧
    (((CompState.initial.insertBoundary [0]).insertBoundary
      []).getColumnEntry 1 = none ∧
    ((CompState.initial.insertBoundary [0]).insertBoundary []).contentOf 1 = [] ∧
    ((CompState.initial.insertBoundary [0]).insertBoundary
      []).isZeroColumn 1 = true ∧
    ∀ r, ((CompState.initial.insertBoundary [0]).insertBoundary
      []).isZeroCell 1 r = true) :=
  ⟨by decide, C9_empty_boundary (CompState.initial.insertBoundary [0]) (by decide)⟩
